import Mathlib

/-!
Verification of the incremental merge engine of an AGENTS.md generator
(`parse_agents_sections`, `merge_agents_content`, `compile_agents_md` in
`src/autogenerateagentsmd/utils.py`).

Strings are modelled by Lean `String` (a wrapper around `List Char`); the
Python string primitives used by the code (`splitlines`, `strip`, `lower`,
`"\n".join`, `str.count`, `re.sub(r"\s+", " ", ·)`) are given explicit
executable models below, restricted to `'\n'` line separators and the
whitespace predicate `Char.isWhitespace` (the code is only ever exercised on
such text; the Unicode-only differences of the Python originals are not
modelled).
-/

namespace AgentsMd

/-- Split a character list at every `'\n'`; always returns a non-empty list
of chunks (the model of splitting on line separators). -/
def splitOnNl : List Char → List (List Char)
  | [] => [[]]
  | c :: reSt =>
    if c = '\n' then [] :: splitOnNl reSt
    else
      match splitOnNl reSt with
      | [] => [[c]]
      | l :: ls => (c :: l) :: ls

/-- Join chunks with `'\n'` separators (the model of `"\n".join`). -/
def joinNl : List (List Char) → List Char
  | [] => []
  | [x] => x
  | x :: y :: reSt => x ++ '\n' :: joinNl (y :: reSt)

/-- Model of Python `str.splitlines` (with `'\n'` as the only line
separator): the empty string gives no lines, and a trailing newline does not
produce a final empty line. -/
def pysplitlinesL (l : List Char) : List (List Char) :=
  if l = [] then []
  else
    let p := splitOnNl l
    if p.getLast? = some [] then p.dropLast else p

def pysplitlines (s : String) : List String :=
  (pysplitlinesL s.data).map (fun c => ⟨c⟩)

/-- Model of `"\n".join` on strings. -/
def joinLines (ls : List String) : String := ⟨joinNl (ls.map String.data)⟩

/-- Remove leading and trailing whitespace characters (model of Python
`str.strip()` with no argument). -/
def trimL (l : List Char) : List Char :=
  ((l.dropWhile Char.isWhitespace).reverse.dropWhile Char.isWhitespace).reverse

def pystrip (s : String) : String := ⟨trimL s.data⟩

/-- Model of Python `str.lower` (ASCII case folding). -/
def pylower (s : String) : String := ⟨s.data.map Char.toLower⟩

/-- Collapse every maximal run of whitespace characters to a single space
(model of `re.sub(r"\s+", " ", ·)`); the boolean argument records whether
the previous character was whitespace. -/
def collapseWSAux : Bool → List Char → List Char
  | _, [] => []
  | prevWS, c :: reSt =>
    if c.isWhitespace then
      if prevWS then collapseWSAux true reSt
      else ' ' :: collapseWSAux true reSt
    else c :: collapseWSAux false reSt

def collapseWS (l : List Char) : List Char := collapseWSAux false l

/-- Greedy non-overlapping count of occurrences of three consecutive
backticks (model of Python `s.count("` ++ "``" ++ "`")`). -/
def countTB : List Char → Nat
  | '`' :: '`' :: '`' :: reSt => countTB reSt + 1
  | _ :: reSt => countTB reSt
  | [] => 0

/-- Boolean substring test (used only to state containment properties). -/
def containsSub (pat s : List Char) : Bool :=
  match s with
  | [] => decide (pat = [])
  | _ :: reSt => decide (pat <+: s) || containsSub pat reSt

def strContains (s pat : String) : Bool := containsSub pat.data s.data

/-- Lookup in an insertion-ordered string map (model of `dict.get`). -/
def dictGet : List (String × String) → String → Option String
  | [], _ => none
  | (k', v) :: reSt, k => if k' = k then some v else dictGet reSt k

/-- Assignment in an insertion-ordered string map (model of `d[k] = v`):
updates the value in place if the key exists, otherwise appends. -/
def dictSet : List (String × String) → String → String → List (String × String)
  | [], k, v => [(k, v)]
  | (k', v') :: reSt, k, v =>
    if k' = k then (k, v) :: reSt else (k', v') :: dictSet reSt k v

/-- Boolean membership in a list of strings. -/
def elemStr : String → List String → Bool
  | _, [] => false
  | x, y :: reSt => if y = x then true else elemStr x reSt

/-! ### Section schemas (`AGENTS_SECTION_HEADINGS`, `STRICT_AGENTS_SECTION_HEADINGS`) -/

def AGENTS_SECTION_HEADINGS : List (String × String) := [
  ("project_overview", "Project Overview"),
  ("agent_persona", "Agent Persona"),
  ("tech_stack", "Tech Stack"),
  ("architecture", "Architecture"),
  ("code_style", "Code Style"),
  ("anti_patterns_and_restrictions", "Anti-Patterns & Restrictions"),
  ("database_and_state", "Database & State Management"),
  ("error_handling_and_logging", "Error Handling & Logging"),
  ("testing_commands", "Testing Commands"),
  ("testing_guidelines", "Testing Guidelines"),
  ("security_and_compliance", "Security & Compliance"),
  ("dependencies_and_environment", "Dependencies & Environment"),
  ("pr_and_git_rules", "PR & Git Rules"),
  ("documentation_standards", "Documentation Standards"),
  ("common_patterns", "Common Patterns"),
  ("agent_workflow", "Agent Workflow / SOP"),
  ("few_shot_examples", "Few-Shot Examples")]

def STRICT_AGENTS_SECTION_HEADINGS : List (String × String) := [
  ("code_style", "Code Style & Strict Rules"),
  ("anti_patterns_and_restrictions", "Anti-Patterns & Restrictions"),
  ("security_and_compliance", "Security & Compliance"),
  ("lessons_learned", "Lessons Learned (Past Failures)"),
  ("repo_quirks", "Repository Quirks & Gotchas"),
  ("execution_commands", "Execution Commands")]

/-! ### Document parser (`parse_agents_sections`)

The Python parser obtains second-level heading positions from a markdown
tokenizer (the external `markdown-it` library) and then slices the raw line
list between consecutive heading positions.  The tokenizer is not part of
this repository; its relevant behaviour is modelled from the spec: the
document is a flat sequence of lines scanned once with an inside-fence
boolean — a fence starts at a line whose trimmed content begins with three
backticks and ends at the next such line; outside fences, a second-level
ATX heading line (at most three spaces of indentation, exactly two `#`
followed by a blank or end of line) yields an h2 token spanning that one
line.  Nested containers (blockquotes, lists), setext headings and closing
`#` sequences are not modelled. -/

/-- Modelled from the spec: a fence delimiter line is a line whose trimmed
content begins with three backticks. -/
def isFenceLine (s : String) : Bool :=
  match trimL s.data with
  | '`' :: '`' :: '`' :: _ => true
  | _ => false

/-- Modelled from the spec: a second-level ATX heading line. -/
def isH2Chars (l : List Char) : Bool :=
  let sp := (l.takeWhile (fun c => c = ' ')).length
  if 4 ≤ sp then false
  else
    match l.drop sp with
    | '#' :: '#' :: reSt =>
      match reSt with
      | [] => true
      | c :: _ => c = ' ' || c = '\t'
    | _ => false

def isH2Line (s : String) : Bool := isH2Chars s.data

/-- Modelled from the spec: the display text of a heading line (the inline
token content), i.e. everything after the `##` marker, trimmed. -/
def headingTextOf (s : String) : String :=
  let l := s.data
  let sp := (l.takeWhile (fun c => c = ' ')).length
  match l.drop sp with
  | '#' :: '#' :: reSt => ⟨trimL reSt⟩
  | _ => pystrip s

/-- The reverse lookup from lowercased display heading to schema key
(`id_to_key` in the source), built from both schemas in order. -/
def idToKey : List (String × String) :=
  (AGENTS_SECTION_HEADINGS ++ STRICT_AGENTS_SECTION_HEADINGS).foldl
    (fun m kh => dictSet m (pylower kh.2) kh.1) []

/-- `id_to_key.get(heading_text.lower(), heading_text)` for a heading line. -/
def keyOfHeadingLine (line : String) : String :=
  let t := headingTextOf line
  (dictGet idToKey (pylower t)).getD t

/-- One step of the inside-fence scan: a fence delimiter line toggles the
state, every other line keeps it. -/
def fenceStep (st : Bool) (l : String) : Bool :=
  if isFenceLine l then !st else st

/-- Fence state after scanning a list of lines. -/
def fenceEnd (ls : List String) (st : Bool) : Bool := ls.foldl fenceStep st

/-- Line indices of recognized h2 headings: a forward scan from line index
`i` in fence state `st`, emitting an index for each h2 heading line met
outside a fence (the model of the h2 `heading_open` token positions). -/
def hIdxAux : List String → Bool → Nat → List Nat
  | [], _, _ => []
  | l :: reSt, st, i =>
    if isFenceLine l then hIdxAux reSt (!st) (i + 1)
    else if st then hIdxAux reSt st (i + 1)
    else if isH2Line l then i :: hIdxAux reSt st (i + 1)
    else hIdxAux reSt st (i + 1)

def headingIndices (lines : List String) : List Nat := hIdxAux lines false 0

/-- `"\n".join(lines[a:b]).strip()` — the body slice between line indices. -/
def bodyOf (lines : List String) (a b : Nat) : String :=
  pystrip (joinLines ((lines.drop a).take (b - a)))

/-- One iteration of the parser loop: close the current section at heading
index `i`, then open a new one keyed by that heading's text.  The save is
guarded by the source's `if current_key:` truthiness test, which skips not
only the initial `None` state but also the empty-string key produced by an
empty `##` heading — a section following an empty heading is never stored. -/
def parseStep (lines : List String)
    (acc : List (String × String) × Option (String × Nat)) (i : Nat) :
    List (String × String) × Option (String × Nat) :=
  let secs :=
    match acc.2 with
    | some (k, st) => if k = "" then acc.1 else dictSet acc.1 k (bodyOf lines st i)
    | none => acc.1
  (secs, some (keyOfHeadingLine (lines.getD i ""), i + 1))

/-- Close the last open section at end of document (`if current_key: ...`
after the loop); like the in-loop save this is skipped both when no heading
was seen (`None`) and when the last heading's key is the empty string. -/
def finishParse (lines : List String)
    (r : List (String × String) × Option (String × Nat)) : List (String × String) :=
  match r.2 with
  | some (k, st) => if k = "" then r.1 else dictSet r.1 k (bodyOf lines st lines.length)
  | none => r.1

/-- The parser over an explicit line list: fold the loop over all heading
indices, then close the last open section at end of document. -/
def parseLines (lines : List String) : List (String × String) :=
  finishParse lines ((headingIndices lines).foldl (parseStep lines) ([], none))

/-- `parse_agents_sections(content)`: parse an AGENTS.md document into an
insertion-ordered map from section key to body. -/
def parse_agents_sections (content : String) : List (String × String) :=
  parseLines (pysplitlines content)

/-! ### Line merger (`merge_agents_content`) -/

/-- `not line.strip()` — a blank (whitespace-only) line. -/
def isBlankLine (l : String) : Bool := pystrip l = ""

/-- `normalize_line`: strip, lowercase, collapse whitespace runs. -/
def normalizeLine (line : String) : String :=
  ⟨collapseWS ((trimL line.data).map Char.toLower)⟩

/-- Per-section merge: append each line of the new body unless a line with
the same normalized form is already present (blank lines are always
appended); the result is the joined line list, stripped.  The source's
list-item branch and prose branch perform the identical append-if-absent
step, so they are modelled by the single conditional below. -/
def mergeBody (existing_body new_body : String) : String :=
  pystrip (joinLines
    ((pysplitlines new_body).foldl
      (fun (acc : List String × List String) line =>
        if isBlankLine line then (acc.1 ++ [line], acc.2)
        else if elemStr (normalizeLine line) acc.2 then acc
        else (acc.1 ++ [line], normalizeLine line :: acc.2))
      (pysplitlines existing_body,
       ((pysplitlines existing_body).filter (fun l => !isBlankLine l)).map normalizeLine)).1)

/-- `merge_agents_content(existing_sections, new_sections)`: start from the
existing map; for each new entry with non-blank body, merge into the
existing body when the key is present, otherwise append the stripped body
under the new key. -/
def merge_agents_content (existing_sections new_sections : List (String × String)) :
    List (String × String) :=
  new_sections.foldl
    (fun merged kv =>
      if pystrip kv.2 = "" then merged
      else
        match dictGet merged kv.1 with
        | some eb => dictSet merged kv.1 (mergeBody eb kv.2)
        | none => merged ++ [(kv.1, pystrip kv.2)])
    existing_sections

/-! ### Document compiler (`compile_agents_md`) -/

/-- The schema sequence selected by a style string:
`STRICT_AGENTS_SECTION_HEADINGS if style == "strict" else AGENTS_SECTION_HEADINGS`. -/
def styleHeadings (style : String) : List (String × String) :=
  if style = "strict" then STRICT_AGENTS_SECTION_HEADINGS
  else AGENTS_SECTION_HEADINGS

/-- The ordered list of rendered parts: the title line, then one part per
schema entry with a non-blank body (tracking every schema key as seen), then
one part per remaining non-blank custom section in map order. -/
def renderedParts (processed : List (String × String)) (repo_name style : String) :
    List String :=
  let title := "# AGENTS.md — " ++ repo_name ++ "\n"
  let r := (styleHeadings style).foldl
    (fun (acc : List String × List String) kh =>
      let content := pystrip ((dictGet processed kh.1).getD "")
      let ps :=
        if content ≠ "" then acc.1 ++ ["## " ++ kh.2 ++ "\n\n" ++ content ++ "\n"]
        else acc.1
      (ps, acc.2 ++ [kh.1]))
    ([title], [])
  processed.foldl
    (fun ps kv =>
      if !elemStr kv.1 r.2 && pystrip kv.2 ≠ "" then
        ps ++ ["## " ++ kv.1 ++ "\n\n" ++ kv.2 ++ "\n"]
      else ps)
    r.1

/-- The final fence-safety net: if the count of triple-backtick markers in
the rendered text is odd, append a closing fence. -/
def fenceFix (final_output : String) : String :=
  if countTB final_output.data % 2 ≠ 0 then final_output ++ "\n```"
  else final_output

/-- `compile_agents_md(sections, repo_name, style, existing_content)`. -/
def compile_agents_md (sections : List (String × String)) (repo_name : String)
    (style : String) (existing_content : String) : String :=
  let processed :=
    if existing_content = "" then sections
    else merge_agents_content (parse_agents_sections existing_content) sections
  fenceFix (joinLines (renderedParts processed repo_name style))

/-! ## Sanity checks: the model reproduces the repository's unit tests -/

example :
    parse_agents_sections
      "# AGENTS.md — test\n## Code Style & Strict Rules\n\n* Rule 1\n* Rule 2\n\n## Anti-Patterns & Restrictions\n\n* Don't do X\n" =
      [("code_style", "* Rule 1\n* Rule 2"),
       ("anti_patterns_and_restrictions", "* Don't do X")] := by decide

example :
    merge_agents_content
      [("code_style", "* Existing Rule"), ("lessons_learned", "* Past Failure 1")]
      [("code_style", "* New Rule\n* Existing Rule"),
       ("lessons_learned", "* Past Failure 2")] =
      [("code_style", "* Existing Rule\n* New Rule"),
       ("lessons_learned", "* Past Failure 1\n* Past Failure 2")] := by decide

example :
    compile_agents_md [("code_style", "* New Bit")] "test" "strict"
      "# AGENTS.md — test\n## Code Style & Strict Rules\n\n* Old Bit" =
      "# AGENTS.md — test\n\n## Code Style & Strict Rules\n\n* Old Bit\n* New Bit\n" := by
  decide

example :
    parse_agents_sections
      "\n## Project Overview\nThis is the overview.\n\n## Tech Stack\n```markdown\n## Not a real heading\n```\n- Python\n" =
      [("project_overview", "This is the overview."),
       ("tech_stack", "```markdown\n## Not a real heading\n```\n- Python")] := by
  decide

/- The `if current_key:` truthiness guard: a section opened by an empty
`##` heading is never saved. -/
example : parse_agents_sections "##\nbody" = [] := by decide

example : parse_agents_sections "##\na\n##\nb" = [] := by decide

example : parse_agents_sections "## A\nx\n##\ny" = [("A", "x")] := by decide

/-! ## Lemmas about the triple-backtick counter -/

theorem countTB_cons_ne (x : Char) (rest : List Char)
    (h : ∀ (r : List Char), x = '`' → rest = '`' :: '`' :: r → False) :
    countTB (x :: rest) = countTB rest := by
  rw [countTB.eq_def]
  split
  · rename_i r heq
    injection heq with h1 h2
    exact (h r h1 h2).elim
  · rename_i heq
    injection heq with h1 h2
    rw [h2]
  · rename_i heq
    exact absurd heq (by simp)

/-- The greedy triple-backtick count is additive across a newline. -/
theorem countTB_nl_split (l m : List Char) :
    countTB (l ++ '\n' :: m) = countTB l + countTB m := by
  induction l using countTB.induct with
  | case1 rest ih => simp [countTB, ih]; omega
  | case2 x rest h ih =>
    have h2 : ∀ (r : List Char), x = '`' → rest ++ '\n' :: m = '`' :: '`' :: r → False := by
      intro r hx hr
      match rest, hr with
      | [], hr => simp at hr
      | [c], hr => simp at hr
      | c :: d :: rest', hr =>
        simp at hr
        exact h rest' hx (by rw [hr.1, hr.2.1])
    rw [List.cons_append, countTB_cons_ne x _ h2, countTB_cons_ne x rest h, ih]
  | case3 => simp [countTB]

/-- Appending `"\n"` plus a closing fence adds exactly one marker. -/
theorem countTB_append_close (l : List Char) :
    countTB (l ++ ['\n', '`', '`', '`']) = countTB l + 1 := by
  have h : ['\n', '`', '`', '`'] = '\n' :: ['`', '`', '`'] := rfl
  rw [h, countTB_nl_split]
  simp [countTB]

/-- The fence-safety net always leaves an even marker count. -/
theorem fenceFix_even (s : String) : Even (countTB (fenceFix s).data) := by
  unfold fenceFix
  by_cases h : countTB s.data % 2 ≠ 0
  · rw [if_pos h, String.data_append]
    have hd : ("\n```" : String).data = ['\n', '`', '`', '`'] := by decide
    rw [hd, countTB_append_close, Nat.even_iff]
    omega
  · rw [if_neg h, Nat.even_iff]
    omega

/-- C2: for every sections map, repository name, style string and
existing-document text, the output of `compile_agents_md` contains an even
number of non-overlapping occurrences of the triple-backtick marker. -/
theorem fence_safety_even (sections : List (String × String))
    (repo_name style existing_content : String) :
    Even (countTB (compile_agents_md sections repo_name style existing_content).data) := by
  unfold compile_agents_md
  exact fenceFix_even _

/-! ## C6: empty compile -/

/-- C6 counterexample: `compile_agents_md({}, "demo", style="strict")` with no
existing content is not the string `"# AGENTS.md — demo"` (the title part
carries a trailing newline). -/
theorem empty_compile_ne_claimed :
    compile_agents_md [] "demo" "strict" "" ≠ "# AGENTS.md — demo" := by decide

/-- C6 amended: `compile_agents_md({}, "demo", style="strict")` with no
existing content returns exactly the title line followed by a newline,
`"# AGENTS.md — demo\n"`; all section headings are omitted because every
body is empty. -/
theorem empty_compile_exact :
    compile_agents_md [] "demo" "strict" "" = "# AGENTS.md — demo\n" := by decide

/-! ## C10: style fallback -/

/-- Every style string other than `"strict"` selects the comprehensive
schema. -/
theorem styleHeadings_ne_strict (style : String) (h : style ≠ "strict") :
    styleHeadings style = AGENTS_SECTION_HEADINGS := by
  unfold styleHeadings
  rw [if_neg h]

/-- C10: the comprehensive schema has 17 entries, and for every style string
other than `"strict"` (e.g. `""` or `"Strict"`), `compile_agents_md` behaves
identically to the same call with style `"comprehensive"`. -/
theorem style_fallback_comprehensive :
    AGENTS_SECTION_HEADINGS.length = 17 ∧
    ∀ (sections : List (String × String)) (repo_name style existing_content : String),
      style ≠ "strict" →
      compile_agents_md sections repo_name style existing_content =
        compile_agents_md sections repo_name "comprehensive" existing_content := by
  refine ⟨by decide, ?_⟩
  intro sections repo_name style existing_content h
  unfold compile_agents_md renderedParts
  rw [styleHeadings_ne_strict style h,
    styleHeadings_ne_strict "comprehensive" (by decide)]

/-- C10 witness: a concrete instantiation at style `"Strict"`. -/
theorem style_fallback_comprehensive_witness :
    compile_agents_md [("code_style", "x")] "r" "Strict" "" =
      compile_agents_md [("code_style", "x")] "r" "comprehensive" "" :=
  style_fallback_comprehensive.2 [("code_style", "x")] "r" "Strict" "" (by decide)

/-! ## Map lemmas -/

theorem dictGet_dictSet (m : List (String × String)) (k' v k : String) :
    dictGet (dictSet m k' v) k = if k' = k then some v else dictGet m k := by
  induction m with
  | nil => simp [dictSet, dictGet]
  | cons kv reSt ih =>
    by_cases h : kv.1 = k'
    · simp [dictSet, h, dictGet]
      by_cases h2 : k' = k <;> simp [h2, dictGet]
    · simp [dictSet, h, dictGet]
      by_cases h2 : kv.1 = k
      · have : ¬ (k' = k) := by rw [← h2]; exact fun hc => h hc.symm
        simp [h2, this]
      · simp [h2, ih]

theorem dictGet_append_single (m : List (String × String)) (k' v k : String)
    (h : k' ≠ k) : dictGet (m ++ [(k', v)]) k = dictGet m k := by
  induction m with
  | nil => simp [dictGet, h]
  | cons kv reSt ih =>
    by_cases h2 : kv.1 = k <;> simp [dictGet, h2, ih]

/-! ## C1: custom-section preservation -/

theorem merge_foldl_preserves (new : List (String × String))
    (m : List (String × String)) (k : String)
    (h : ∀ kv ∈ new, kv.1 ≠ k) :
    dictGet
      (new.foldl
        (fun merged kv =>
          if pystrip kv.2 = "" then merged
          else
            match dictGet merged kv.1 with
            | some eb => dictSet merged kv.1 (mergeBody eb kv.2)
            | none => merged ++ [(kv.1, pystrip kv.2)])
        m) k = dictGet m k := by
  induction new generalizing m with
  | nil => rfl
  | cons kv reSt ih =>
    have hk : kv.1 ≠ k := h kv (List.mem_cons_self kv reSt)
    have hreSt : ∀ kv' ∈ reSt, kv'.1 ≠ k := fun kv' hm => h kv' (List.mem_cons_of_mem kv hm)
    rw [List.foldl_cons, ih _ hreSt]
    by_cases hb : pystrip kv.2 = ""
    · rw [if_pos hb]
    · rw [if_neg hb]
      cases hg : dictGet m kv.1 with
      | some eb => simp [hg, dictGet_dictSet, hk]
      | none => simp [hg, dictGet_append_single _ _ _ _ hk]

/-- C1: a key present only in the existing map is bound in the result of
`merge_agents_content` to exactly its existing body; and compiling a
concrete existing document containing the custom section
`## My Internal Notes` against new sections that do not use that key yields
output containing that heading followed by the section's original body. -/
theorem custom_section_preservation :
    (∀ (existing_sections new_sections : List (String × String)) (k b : String),
      dictGet existing_sections k = some b →
      (∀ kv ∈ new_sections, kv.1 ≠ k) →
      dictGet (merge_agents_content existing_sections new_sections) k = some b) ∧
    strContains
      (compile_agents_md [("tech_stack", "- Rust")] "test" "comprehensive"
        "# AGENTS.md — test\n\n## My Internal Notes\n\n* secret note\n\n## Tech Stack\n\n- Python\n")
      "## My Internal Notes\n\n* secret note\n" = true := by
  constructor
  · intro existing new k b h1 h2
    unfold merge_agents_content
    rw [merge_foldl_preserves new existing k h2, h1]
  · decide

/-- C1 witness: the merge clause applied at a concrete map pair. -/
theorem custom_section_preservation_witness :
    dictGet
      (merge_agents_content [("My Internal Notes", "* secret note")]
        [("tech_stack", "- Rust")]) "My Internal Notes" = some "* secret note" :=
  custom_section_preservation.1 [("My Internal Notes", "* secret note")]
    [("tech_stack", "- Rust")] "My Internal Notes" "* secret note" (by decide)
    (by decide)

/-! ## The parser as an occurrence list

`sectionPairs` is the in-document-order list of `(key, body)` section
occurrences; the parser's stateful loop collapses it into a map by repeated
assignment (last write wins). -/

/-- The occurrence list for an open section keyed `k` whose body starts at
line `st`, given the remaining heading indices. -/
def pairsAux (lines : List String) (k : String) (st : Nat) :
    List Nat → List (String × String)
  | [] => [(k, bodyOf lines st lines.length)]
  | i :: reSt =>
    (k, bodyOf lines st i) :: pairsAux lines (keyOfHeadingLine (lines.getD i "")) (i + 1) reSt

/-- All `(key, body)` section occurrences of a document, in document order. -/
def sectionPairs (lines : List String) : List (String × String) :=
  match headingIndices lines with
  | [] => []
  | i :: reSt => pairsAux lines (keyOfHeadingLine (lines.getD i "")) (i + 1) reSt

/-- Python truthiness of a section key: `if current_key:` holds exactly when
the key is not the empty string. -/
def truthyKey (kv : String × String) : Bool := decide (¬kv.1 = "")

theorem finishParse_foldl (lines : List String) (hs : List Nat)
    (secs : List (String × String)) (k : String) (st : Nat) :
    finishParse lines (hs.foldl (parseStep lines) (secs, some (k, st))) =
      ((pairsAux lines k st hs).filter truthyKey).foldl
        (fun m kv => dictSet m kv.1 kv.2) secs := by
  induction hs generalizing secs k st with
  | nil =>
    rw [List.foldl_nil]
    have hfin : finishParse lines (secs, some (k, st)) =
        (if k = "" then secs else dictSet secs k (bodyOf lines st lines.length)) := rfl
    rw [hfin, pairsAux, List.filter_cons]
    by_cases hk : k = ""
    · rw [if_pos hk, if_neg (by simp [truthyKey, hk])]
      rfl
    · rw [if_neg hk, if_pos (by simp [truthyKey, hk])]
      rfl
  | cons i reSt ih =>
    rw [List.foldl_cons]
    have hstep : parseStep lines (secs, some (k, st)) i =
        ((if k = "" then secs else dictSet secs k (bodyOf lines st i)),
         some (keyOfHeadingLine (lines.getD i ""), i + 1)) := rfl
    rw [hstep, pairsAux, List.filter_cons]
    by_cases hk : k = ""
    · rw [if_pos hk, if_neg (by simp [truthyKey, hk])]
      exact ih secs _ _
    · rw [if_neg hk, if_pos (by simp [truthyKey, hk]), List.foldl_cons]
      exact ih (dictSet secs k (bodyOf lines st i)) _ _

/-- The parser equals the fold of repeated map assignment over the
occurrence list restricted to its truthy (non-empty) keys. -/
theorem parseLines_eq_pairs (lines : List String) :
    parseLines lines =
      ((sectionPairs lines).filter truthyKey).foldl
        (fun m kv => dictSet m kv.1 kv.2) [] := by
  unfold parseLines sectionPairs
  cases h : headingIndices lines with
  | nil => rfl
  | cons i reSt => exact finishParse_foldl lines reSt [] _ _

/-- The value of the last occurrence of key `k` in an occurrence list. -/
def lastValueOf (ps : List (String × String)) (k : String) : Option String :=
  match ps with
  | [] => none
  | kv :: reSt =>
    match lastValueOf reSt k with
    | some v => some v
    | none => if kv.1 = k then some kv.2 else none

theorem dictGet_foldl_dictSet (ps : List (String × String))
    (m : List (String × String)) (k : String) :
    dictGet (ps.foldl (fun m kv => dictSet m kv.1 kv.2) m) k =
      match lastValueOf ps k with
      | some v => some v
      | none => dictGet m k := by
  induction ps generalizing m with
  | nil => rfl
  | cons kv reSt ih =>
    rw [List.foldl_cons, ih]
    show _ = (match lastValueOf (kv :: reSt) k with
      | some v => some v
      | none => dictGet m k)
    rw [lastValueOf]
    cases h : lastValueOf reSt k with
    | some v => rfl
    | none =>
      rw [dictGet_dictSet]
      by_cases hk : kv.1 = k <;> simp [hk]

/-! ## C7: last write wins for duplicate headings -/

/-- Restricting an occurrence list to its truthy keys does not change the
last value carried by a non-empty key. -/
theorem lastValueOf_filter_truthy (ps : List (String × String)) (k : String)
    (hk : k ≠ "") :
    lastValueOf (ps.filter truthyKey) k = lastValueOf ps k := by
  induction ps with
  | nil => rfl
  | cons kv reSt ih =>
    rw [List.filter_cons]
    by_cases ht : truthyKey kv = true
    · rw [if_pos ht, lastValueOf, lastValueOf, ih]
    · rw [if_neg ht, ih]
      have hkv : kv.1 = "" := by
        by_contra hc
        exact ht (by simp [truthyKey, hc])
      rw [lastValueOf]
      cases h : lastValueOf reSt k with
      | some v => rfl
      | none =>
        rw [if_neg (by rw [hkv]; exact fun hc => hk hc.symm)]

/-- C7 counterexample: a document with two empty `##` headings — the same
(empty) heading text twice — stores no binding at all for that text's key:
the loop's `if current_key:` truthiness guard is false for the empty string,
so both saves are skipped and the last occurrence's body `"b"` is not kept. -/
theorem duplicate_heading_empty_cex :
    2 ≤ ((sectionPairs (pysplitlines "##\na\n##\nb")).filter
      (fun kv => kv.1 = "")).length ∧
    lastValueOf (sectionPairs (pysplitlines "##\na\n##\nb")) "" = some "b" ∧
    dictGet (parse_agents_sections "##\na\n##\nb") "" = none := by
  decide

/-- C7 amended: if a document contains two or more section occurrences
carrying the same non-empty key (in particular two or more second-level
headings with the same non-empty heading text), `parse_agents_sections` maps
that key to the body of the last occurrence in document order.  The
non-emptiness hypothesis reflects the loop's `if current_key:` truthiness
guard, under which an empty-text heading's sections are never stored. -/
theorem duplicate_heading_last_write_wins (content : String) (k : String)
    (hk : k ≠ "")
    (h : 2 ≤ ((sectionPairs (pysplitlines content)).filter
      (fun kv => kv.1 = k)).length) :
    dictGet (parse_agents_sections content) k =
      lastValueOf (sectionPairs (pysplitlines content)) k := by
  unfold parse_agents_sections
  rw [parseLines_eq_pairs, dictGet_foldl_dictSet, lastValueOf_filter_truthy _ _ hk]
  cases hl : lastValueOf (sectionPairs (pysplitlines content)) k with
  | some v => rfl
  | none =>
    exfalso
    have hnone : ∀ (ps : List (String × String)),
        lastValueOf ps k = none → (ps.filter (fun kv => kv.1 = k)).length = 0 := by
      intro ps
      induction ps with
      | nil => intro _; rfl
      | cons kv reSt ih =>
        intro hn
        rw [lastValueOf] at hn
        cases hr : lastValueOf reSt k with
        | some v => rw [hr] at hn; exact absurd hn (by simp)
        | none =>
          rw [hr] at hn
          by_cases hk : kv.1 = k
          · rw [if_pos hk] at hn; exact absurd hn (by simp)
          · simp [List.filter, hk, ih hr]
    have := hnone _ hl
    omega

/-- C7 witness: a document with two `## Tech Stack` headings parses to the
second body. -/
theorem duplicate_heading_last_write_wins_witness :
    ("tech_stack" : String) ≠ "" ∧
    2 ≤ ((sectionPairs (pysplitlines "## Tech Stack\nfirst\n## Tech Stack\nsecond")).filter
      (fun kv => kv.1 = "tech_stack")).length ∧
    dictGet (parse_agents_sections "## Tech Stack\nfirst\n## Tech Stack\nsecond")
        "tech_stack" =
      lastValueOf (sectionPairs (pysplitlines "## Tech Stack\nfirst\n## Tech Stack\nsecond"))
        "tech_stack" :=
  ⟨by decide, by decide,
   duplicate_heading_last_write_wins "## Tech Stack\nfirst\n## Tech Stack\nsecond"
     "tech_stack" (by decide) (by decide)⟩

/-! ## C3: heading-in-fence immunity -/

theorem hIdxAux_mem_fence (lines : List String) (st : Bool) (i j : Nat)
    (h : j ∈ hIdxAux lines st i) :
    i ≤ j ∧ fenceEnd (List.take (j - i) lines) st = false := by
  induction lines generalizing st i with
  | nil => exact absurd h (by simp [hIdxAux])
  | cons l reSt ih =>
    rw [hIdxAux] at h
    by_cases hf : isFenceLine l
    · rw [if_pos hf] at h
      obtain ⟨h1, h2⟩ := ih (!st) (i + 1) h
      refine ⟨by omega, ?_⟩
      have ht : j - i = (j - (i + 1)) + 1 := by omega
      rw [ht, List.take_succ_cons]
      show fenceEnd (List.take (j - (i + 1)) reSt) (fenceStep st l) = false
      rw [fenceStep, if_pos hf]
      exact h2
    · rw [if_neg hf] at h
      have hstep : fenceStep st l = st := by rw [fenceStep, if_neg hf]
      by_cases hst : st
      · rw [if_pos hst] at h
        obtain ⟨h1, h2⟩ := ih st (i + 1) h
        refine ⟨by omega, ?_⟩
        have ht : j - i = (j - (i + 1)) + 1 := by omega
        rw [ht, List.take_succ_cons]
        show fenceEnd (List.take (j - (i + 1)) reSt) (fenceStep st l) = false
        rw [hstep]
        exact h2
      · rw [if_neg hst] at h
        have hfalse : st = false := by revert hst; cases st <;> simp
        by_cases hh : isH2Line l
        · rw [if_pos hh] at h
          rcases List.mem_cons.mp h with h | h
          · subst h
            simp [fenceEnd, hfalse]
          · obtain ⟨h1, h2⟩ := ih st (i + 1) h
            refine ⟨by omega, ?_⟩
            have ht : j - i = (j - (i + 1)) + 1 := by omega
            rw [ht, List.take_succ_cons]
            show fenceEnd (List.take (j - (i + 1)) reSt) (fenceStep st l) = false
            rw [hstep]
            exact h2
        · rw [if_neg hh] at h
          obtain ⟨h1, h2⟩ := ih st (i + 1) h
          refine ⟨by omega, ?_⟩
          have ht : j - i = (j - (i + 1)) + 1 := by omega
          rw [ht, List.take_succ_cons]
          show fenceEnd (List.take (j - (i + 1)) reSt) (fenceStep st l) = false
          rw [hstep]
          exact h2

/-- C3: a line lying inside a fenced block (the fence-scan state before it
is true) is never a recognized section boundary, so the parser never starts
a new section there; concretely, a `## fake heading` line inside a fenced
block stays inside the enclosing section's body and produces no section of
its own. -/
theorem heading_in_fence_immunity :
    (∀ (lines : List String) (i : Nat),
      fenceEnd (List.take i lines) false = true → i ∉ headingIndices lines) ∧
    dictGet
        (parse_agents_sections
          "## Tech Stack\n```markdown\n## Not a real heading\n```\n- Python")
        "Not a real heading" = none ∧
    strContains
        ((dictGet
          (parse_agents_sections
            "## Tech Stack\n```markdown\n## Not a real heading\n```\n- Python")
          "tech_stack").getD "")
        "## Not a real heading" = true := by
  refine ⟨?_, by decide, by decide⟩
  intro lines i hin hmem
  have := (hIdxAux_mem_fence lines false 0 i hmem).2
  rw [Nat.sub_zero] at this
  rw [hin] at this
  exact absurd this (by simp)

/-- C3 witness: the universal clause applied to a two-line document whose
second line sits inside an open fence. -/
theorem heading_in_fence_immunity_witness :
    fenceEnd (List.take 1 ["```", "## x"]) false = true ∧
    1 ∉ headingIndices ["```", "## x"] :=
  ⟨by decide, heading_in_fence_immunity.1 ["```", "## x"] 1 (by decide)⟩

/-! ## Whitespace-trim lemmas -/

theorem head?_dropWhile (p : Char → Bool) (l : List Char) (c : Char)
    (h : (l.dropWhile p).head? = some c) : p c = false := by
  induction l with
  | nil => exact absurd h (by simp)
  | cons x reSt ih =>
    rw [List.dropWhile_cons] at h
    by_cases hp : p x = true
    · rw [if_pos hp] at h
      exact ih h
    · rw [if_neg hp] at h
      have : x = c := by injection h
      subst this
      revert hp
      cases p x <;> simp

theorem getLast?_dropWhile (p : Char → Bool) (l : List Char) :
    l.dropWhile p = [] ∨ (l.dropWhile p).getLast? = l.getLast? := by
  induction l with
  | nil => exact Or.inl rfl
  | cons x reSt ih =>
    rw [List.dropWhile_cons]
    by_cases hp : p x = true
    · rw [if_pos hp]
      cases hdp : List.dropWhile p reSt with
      | nil => exact Or.inl rfl
      | cons y t =>
        right
        rcases ih with h | h
        · rw [h] at hdp
          exact absurd hdp (by simp)
        · rw [hdp] at h
          rw [h]
          cases reSt with
          | nil => simp [List.dropWhile] at hdp
          | cons z w => rw [List.getLast?_cons_cons]
    · rw [if_neg hp]
      right
      rfl

theorem head?_trimL (l : List Char) (c : Char) (h : (trimL l).head? = some c) :
    c.isWhitespace = false := by
  unfold trimL at h
  rw [List.head?_reverse] at h
  rcases getLast?_dropWhile Char.isWhitespace (l.dropWhile Char.isWhitespace).reverse with
    he | he
  · rw [he] at h
    exact absurd h (by simp)
  · rw [he, List.getLast?_reverse] at h
    exact head?_dropWhile _ _ _ h

theorem getLast?_trimL (l : List Char) (c : Char) (h : (trimL l).getLast? = some c) :
    c.isWhitespace = false := by
  unfold trimL at h
  rw [List.getLast?_reverse] at h
  exact head?_dropWhile _ _ _ h

theorem dropWhile_eq_self_of_head (p : Char → Bool) (l : List Char)
    (h : ∀ c, l.head? = some c → p c = false) : l.dropWhile p = l := by
  cases l with
  | nil => rfl
  | cons x reSt =>
    rw [List.dropWhile_cons, if_neg]
    rw [h x rfl]
    simp

theorem trimL_eq_self (l : List Char)
    (h1 : ∀ c, l.head? = some c → c.isWhitespace = false)
    (h2 : ∀ c, l.getLast? = some c → c.isWhitespace = false) : trimL l = l := by
  unfold trimL
  rw [dropWhile_eq_self_of_head _ _ h1,
    dropWhile_eq_self_of_head _ _ (fun c hc => h2 c (by rw [← List.head?_reverse]; exact hc)),
    List.reverse_reverse]

theorem trimL_idem (l : List Char) : trimL (trimL l) = trimL l :=
  trimL_eq_self (trimL l) (head?_trimL l) (getLast?_trimL l)

theorem pystrip_idem (s : String) : pystrip (pystrip s) = pystrip s := by
  unfold pystrip
  exact congrArg String.mk (trimL_idem s.data)

/-! ## C8: parser body characterization -/

theorem zip_cons_headD (i len : Nat) (t : List Nat) :
    (i :: t).zip (t ++ [len]) = (i, t.headD len) :: t.zip (t.tail ++ [len]) := by
  cases t <;> rfl

theorem pairsAux_eq_zip (lines : List String) (k : String) (st : Nat) (hs : List Nat) :
    pairsAux lines k st hs =
      (k, bodyOf lines st (hs.headD lines.length)) ::
        (hs.zip (hs.tail ++ [lines.length])).map
          (fun ij => (keyOfHeadingLine (lines.getD ij.1 ""), bodyOf lines (ij.1 + 1) ij.2)) := by
  induction hs generalizing k st with
  | nil => rfl
  | cons i t ih =>
    rw [pairsAux, ih]
    dsimp only [List.tail_cons, List.headD_cons]
    rw [zip_cons_headD]
    rfl

/-- The occurrence list equals direct slicing between consecutive heading
indices. -/
theorem sectionPairs_eq_zip (lines : List String) :
    sectionPairs lines =
      ((headingIndices lines).zip ((headingIndices lines).tail ++ [lines.length])).map
        (fun ij => (keyOfHeadingLine (lines.getD ij.1 ""), bodyOf lines (ij.1 + 1) ij.2)) := by
  unfold sectionPairs
  cases h : headingIndices lines with
  | nil => rfl
  | cons i t =>
    dsimp only [List.tail_cons]
    rw [pairsAux_eq_zip, zip_cons_headD]
    rfl

theorem mem_dictSet (m : List (String × String)) (k v : String)
    (kv : String × String) (h : kv ∈ dictSet m k v) : kv ∈ m ∨ kv = (k, v) := by
  induction m with
  | nil => simp [dictSet] at h; exact Or.inr h
  | cons p reSt ih =>
    rw [dictSet] at h
    by_cases hp : p.1 = k
    · rw [if_pos hp] at h
      rcases List.mem_cons.mp h with h | h
      · exact Or.inr h
      · exact Or.inl (List.mem_cons_of_mem p h)
    · rw [if_neg hp] at h
      rcases List.mem_cons.mp h with h | h
      · exact Or.inl (h ▸ List.mem_cons_self p reSt)
      · rcases ih h with h | h
        · exact Or.inl (List.mem_cons_of_mem p h)
        · exact Or.inr h

theorem mem_foldl_dictSet (ps m : List (String × String)) (kv : String × String)
    (h : kv ∈ ps.foldl (fun m kv => dictSet m kv.1 kv.2) m) : kv ∈ m ∨ kv ∈ ps := by
  induction ps generalizing m with
  | nil => exact Or.inl h
  | cons p reSt ih =>
    rw [List.foldl_cons] at h
    rcases ih _ h with h | h
    · rcases mem_dictSet _ _ _ _ h with h | h
      · exact Or.inl h
      · exact Or.inr (by rw [h]; exact List.mem_cons_self p reSt)
    · exact Or.inr (List.mem_cons_of_mem p h)

theorem mem_pairsAux_body (lines : List String) (k : String) (st : Nat)
    (hs : List Nat) (kv : String × String) (h : kv ∈ pairsAux lines k st hs) :
    ∃ a b, kv.2 = bodyOf lines a b := by
  induction hs generalizing k st with
  | nil =>
    rw [pairsAux] at h
    rcases List.mem_cons.mp h with h | h
    · exact ⟨st, lines.length, by rw [h]⟩
    · exact absurd h (by simp)
  | cons i t ih =>
    rw [pairsAux] at h
    rcases List.mem_cons.mp h with h | h
    · exact ⟨st, i, by rw [h]⟩
    · exact ih _ _ h

/-- C8 counterexample: leading whitespace on the first non-blank body line
is removed by the parser (`"## Tech Stack\n  x"` yields body `"x"`, not
`"  x"`). -/
theorem parser_body_trim_cex :
    dictGet (parse_agents_sections "## Tech Stack\n  x") "tech_stack" = some "x" ∧
    dictGet (parse_agents_sections "## Tech Stack\n  x") "tech_stack" ≠ some "  x" := by
  decide

/-- C8 amended: the parser's result is the repeated-assignment collapse of
the occurrence list in which, for each pair of consecutive recognized
heading indices (the last paired with end of document), the body is the join
of the lines strictly after the heading line and before the next boundary —
excluding the heading line itself — with leading and trailing whitespace of
the joined text removed (so leading/trailing blank lines are dropped and
edge whitespace of the first and last non-blank lines is also stripped,
while internal blank lines and structure are preserved verbatim), restricted
to occurrences whose key is truthy: the `if current_key:` guard drops every
section opened by an empty `##` heading.  In particular every produced body
is trim-fixed. -/
theorem parser_body_characterization :
    (∀ content : String,
      parse_agents_sections content =
        ((((headingIndices (pysplitlines content)).zip
            ((headingIndices (pysplitlines content)).tail ++ [(pysplitlines content).length])).map
          (fun ij =>
            (keyOfHeadingLine ((pysplitlines content).getD ij.1 ""),
             pystrip (joinLines
               (((pysplitlines content).drop (ij.1 + 1)).take (ij.2 - (ij.1 + 1))))))).filter
          truthyKey).foldl
          (fun m kv => dictSet m kv.1 kv.2) []) ∧
    ∀ (content : String) (kv : String × String),
      kv ∈ parse_agents_sections content → pystrip kv.2 = kv.2 := by
  constructor
  · intro content
    unfold parse_agents_sections
    rw [parseLines_eq_pairs, sectionPairs_eq_zip]
    rfl
  · intro content kv h
    unfold parse_agents_sections at h
    rw [parseLines_eq_pairs] at h
    rcases mem_foldl_dictSet _ _ _ h with h | h
    · exact absurd h (by simp)
    · have h := List.mem_of_mem_filter h
      unfold sectionPairs at h
      cases hh : headingIndices (pysplitlines content) with
      | nil => rw [hh] at h; exact absurd h (by simp)
      | cons i t =>
        rw [hh] at h
        obtain ⟨a, b, hab⟩ := mem_pairsAux_body _ _ _ _ _ h
        rw [hab]
        exact pystrip_idem _

/-- C8 witness: the trim-fixedness clause applied to a concrete parsed
entry. -/
theorem parser_body_characterization_witness :
    pystrip "* Rule 1\n* Rule 2" = "* Rule 1\n* Rule 2" :=
  parser_body_characterization.2
    "# AGENTS.md — test\n## Code Style & Strict Rules\n\n* Rule 1\n* Rule 2\n"
    ("code_style", "* Rule 1\n* Rule 2") (by decide)

/-! ## Split/join round-trip lemmas -/

theorem joinNl_cons_cons (x y : List Char) (t : List (List Char)) :
    joinNl (x :: y :: t) = x ++ '\n' :: joinNl (y :: t) := rfl

theorem splitOnNl_cons_nl (reSt : List Char) :
    splitOnNl ('\n' :: reSt) = [] :: splitOnNl reSt := by
  rw [splitOnNl, if_pos rfl]

theorem splitOnNl_cons_ne (c : Char) (reSt : List Char) (hc : ¬c = '\n') :
    splitOnNl (c :: reSt) =
      match splitOnNl reSt with
      | [] => [[c]]
      | l :: ls => (c :: l) :: ls := by
  rw [splitOnNl, if_neg hc]

theorem splitOnNl_ne_nil (l : List Char) : splitOnNl l ≠ [] := by
  induction l with
  | nil => simp [splitOnNl]
  | cons c reSt ih =>
    by_cases hc : c = '\n'
    · subst hc
      rw [splitOnNl_cons_nl]
      simp
    · rw [splitOnNl_cons_ne c reSt hc]
      cases hs : splitOnNl reSt with
      | nil => exact absurd hs ih
      | cons x xs => simp

theorem joinNl_splitOnNl (l : List Char) : joinNl (splitOnNl l) = l := by
  induction l with
  | nil => rfl
  | cons c reSt ih =>
    by_cases hc : c = '\n'
    · subst hc
      rw [splitOnNl_cons_nl]
      cases hs : splitOnNl reSt with
      | nil => exact absurd hs (splitOnNl_ne_nil reSt)
      | cons x xs =>
        rw [hs] at ih
        rw [joinNl_cons_cons, ih]
        simp
    · rw [splitOnNl_cons_ne c reSt hc]
      cases hs : splitOnNl reSt with
      | nil => exact absurd hs (splitOnNl_ne_nil reSt)
      | cons x xs =>
        rw [hs] at ih
        cases xs with
        | nil =>
          show joinNl [c :: x] = c :: reSt
          show c :: x = c :: reSt
          rw [show joinNl [x] = x from rfl] at ih
          rw [ih]
        | cons y ys =>
          show joinNl ((c :: x) :: y :: ys) = c :: reSt
          rw [joinNl_cons_cons] at ih ⊢
          rw [← ih]
          simp

theorem getLast?_splitOnNl_ne_nil (l : List Char) (hne : l ≠ [])
    (h : ∀ c, l.getLast? = some c → c ≠ '\n') :
    (splitOnNl l).getLast? ≠ some [] := by
  induction l with
  | nil => exact absurd rfl hne
  | cons c reSt ih =>
    cases hr : reSt with
    | nil =>
      subst hr
      have hc : c ≠ '\n' := h c rfl
      rw [splitOnNl_cons_ne c [] hc]
      simp [splitOnNl]
    | cons d t =>
      have hrne : reSt ≠ [] := by rw [hr]; simp
      have hlast : ∀ x, reSt.getLast? = some x → x ≠ '\n' := by
        intro x hx
        refine h x ?_
        rw [hr] at hx ⊢
        rw [List.getLast?_cons_cons]
        exact hx
      rw [← hr]
      have ihr := ih hrne hlast
      by_cases hc : c = '\n'
      · subst hc
        rw [splitOnNl_cons_nl]
        cases hs : splitOnNl reSt with
        | nil => exact absurd hs (splitOnNl_ne_nil reSt)
        | cons x xs =>
          rw [hs] at ihr
          rw [List.getLast?_cons_cons]
          exact ihr
      · rw [splitOnNl_cons_ne c reSt hc]
        cases hs : splitOnNl reSt with
        | nil => exact absurd hs (splitOnNl_ne_nil reSt)
        | cons x xs =>
          rw [hs] at ihr
          cases xs with
          | nil =>
            show ([(c :: x)] : List (List Char)).getLast? ≠ some []
            simp
          | cons y ys =>
            show ((c :: x) :: y :: ys : List (List Char)).getLast? ≠ some []
            rw [List.getLast?_cons_cons] at ihr ⊢
            exact ihr

/-- For a non-empty text not ending in a newline, the Python `splitlines`
model is exactly the plain newline split. -/
theorem pysplitlinesL_eq_splitOnNl (l : List Char) (hne : l ≠ [])
    (h : ∀ c, l.getLast? = some c → c ≠ '\n') :
    pysplitlinesL l = splitOnNl l := by
  unfold pysplitlinesL
  rw [if_neg hne]
  rw [if_neg]
  intro hc
  exact getLast?_splitOnNl_ne_nil l hne h hc

theorem joinNl_append (xs ys : List (List Char)) (hx : xs ≠ []) (hy : ys ≠ []) :
    joinNl (xs ++ ys) = joinNl xs ++ '\n' :: joinNl ys := by
  induction xs with
  | nil => exact absurd rfl hx
  | cons x xs' ih =>
    cases xs' with
    | nil =>
      cases ys with
      | nil => exact absurd rfl hy
      | cons y ys' =>
        rw [show ([x] : List (List Char)) ++ y :: ys' = x :: y :: ys' from rfl,
          joinNl_cons_cons]
        rfl
    | cons x2 t =>
      have ih2 := ih (by simp)
      rw [show (x :: x2 :: t) ++ ys = x :: ((x2 :: t) ++ ys) from rfl]
      rw [show (x2 :: t) ++ ys = x2 :: (t ++ ys) from rfl] at ih2 ⊢
      rw [joinNl_cons_cons, ih2, joinNl_cons_cons]
      simp

/-! ## Whitespace helper lemmas -/

theorem all_ws_of_trimL_nil (l : List Char) (h : trimL l = []) :
    ∀ c ∈ l, c.isWhitespace = true := by
  unfold trimL at h
  rw [List.reverse_eq_nil_iff] at h
  rw [List.dropWhile_eq_nil_iff] at h
  intro c hc
  rw [← List.takeWhile_append_dropWhile Char.isWhitespace l] at hc
  rcases List.mem_append.mp hc with hc | hc
  · exact List.mem_takeWhile_imp hc
  · have : c ∈ (List.dropWhile Char.isWhitespace l).reverse := by simpa using hc
    exact h c this

theorem all_ws_of_blank (s : String) (h : isBlankLine s = true) :
    ∀ c ∈ s.data, c.isWhitespace = true := by
  unfold isBlankLine pystrip at h
  rw [decide_eq_true_iff] at h
  have : trimL s.data = [] := congrArg String.data h
  exact all_ws_of_trimL_nil s.data this

theorem dropWhile_append_all (p : Char → Bool) (u v : List Char)
    (h : ∀ x ∈ u, p x = true) : List.dropWhile p (u ++ v) = List.dropWhile p v := by
  induction u with
  | nil => rfl
  | cons x u' ih =>
    rw [List.cons_append, List.dropWhile_cons, if_pos (h x (List.mem_cons_self x u'))]
    exact ih (fun y hy => h y (List.mem_cons_of_mem x hy))

theorem trimL_append_ws (b w : List Char) (hb : trimL b = b) (hbne : b ≠ [])
    (hw : ∀ c ∈ w, c.isWhitespace = true) : trimL (b ++ w) = b := by
  have hhead : ∀ c, b.head? = some c → c.isWhitespace = false := by
    intro c hc
    exact head?_trimL b c (by rw [hb]; exact hc)
  have hlast : ∀ c, b.getLast? = some c → c.isWhitespace = false := by
    intro c hc
    exact getLast?_trimL b c (by rw [hb]; exact hc)
  unfold trimL
  have h1 : List.dropWhile Char.isWhitespace (b ++ w) = b ++ w := by
    cases b with
    | nil => exact absurd rfl hbne
    | cons c reSt =>
      rw [List.cons_append, List.dropWhile_cons, if_neg]
      rw [hhead c rfl]
      simp
  rw [h1, List.reverse_append, dropWhile_append_all _ _ _ (by
    intro x hx
    exact hw x (by simpa using hx))]
  rw [dropWhile_eq_self_of_head _ _ (by
    intro c hc
    rw [List.head?_reverse] at hc
    exact hlast c hc)]
  exact List.reverse_reverse b

/-! ## C4: deduplication idempotence -/

theorem elemStr_of_mem (x : String) (s : List String) (h : x ∈ s) :
    elemStr x s = true := by
  induction s with
  | nil => exact absurd h (by simp)
  | cons y t ih =>
    rw [elemStr]
    by_cases hy : y = x
    · rw [if_pos hy]
    · rw [if_neg hy]
      rcases List.mem_cons.mp h with h | h
      · exact absurd h.symm hy
      · exact ih h

theorem mergeFold_all_seen (ls : List String) (acc seen : List String)
    (h : ∀ l ∈ ls, isBlankLine l = false → elemStr (normalizeLine l) seen = true) :
    (ls.foldl
      (fun (acc : List String × List String) line =>
        if isBlankLine line then (acc.1 ++ [line], acc.2)
        else if elemStr (normalizeLine line) acc.2 then acc
        else (acc.1 ++ [line], normalizeLine line :: acc.2))
      (acc, seen)).1 = acc ++ ls.filter isBlankLine := by
  induction ls generalizing acc with
  | nil => simp
  | cons l reSt ih =>
    rw [List.foldl_cons, List.filter_cons]
    by_cases hb : isBlankLine l
    · rw [if_pos hb, if_pos hb]
      rw [ih (acc ++ [l]) (fun x hx hbx => h x (List.mem_cons_of_mem l hx) hbx)]
      simp
    · rw [if_neg hb, if_pos (h l (List.mem_cons_self l reSt) (by revert hb; cases isBlankLine l <;> simp)),
        if_neg hb]
      exact ih acc (fun x hx hbx => h x (List.mem_cons_of_mem l hx) hbx)

theorem map_data_pysplitlines (s : String) :
    (pysplitlines s).map String.data = pysplitlinesL s.data := by
  unfold pysplitlines
  rw [List.map_map]
  have : (String.data ∘ fun c => (⟨c⟩ : String)) = id := rfl
  rw [this, List.map_id]

theorem ws_joinNl (ls : List (List Char)) (h : ∀ l ∈ ls, ∀ c ∈ l, c.isWhitespace = true) :
    ∀ c ∈ joinNl ls, c.isWhitespace = true := by
  induction ls with
  | nil => simp [joinNl]
  | cons x t ih =>
    cases t with
    | nil =>
      rw [joinNl]
      exact h x (List.mem_cons_self x [])
    | cons y u =>
      rw [joinNl]
      intro c hc
      rcases List.mem_append.mp hc with hc | hc
      · exact h x (List.mem_cons_self x _) c hc
      · rcases List.mem_cons.mp hc with hc | hc
        · subst hc; rfl
        · exact ih (fun l hl => h l (List.mem_cons_of_mem x hl)) c hc

/-- Merging a trim-fixed body with itself returns exactly the body. -/
theorem mergeBody_self (b : String) (h : pystrip b = b) : mergeBody b b = b := by
  by_cases hb : b = ""
  · subst hb
    decide
  · have hdata : trimL b.data = b.data := congrArg String.data h
    have hbne : b.data ≠ [] := by
      intro hc
      refine hb ?_
      cases b with
      | mk d =>
        simp at hc
        rw [hc]
    have hlastc : ∀ c, b.data.getLast? = some c → c ≠ '\n' := by
      intro c hc hn
      have := getLast?_trimL b.data c (by rw [hdata]; exact hc)
      rw [hn] at this
      simp [Char.isWhitespace] at this
    unfold mergeBody
    rw [mergeFold_all_seen _ _ _ (by
      intro l hl hbl
      refine elemStr_of_mem _ _ ?_
      refine List.mem_map_of_mem normalizeLine ?_
      rw [List.mem_filter]
      exact ⟨hl, by rw [hbl]; rfl⟩)]
    have hsplit : (pysplitlines b).map String.data = splitOnNl b.data := by
      rw [map_data_pysplitlines, pysplitlinesL_eq_splitOnNl b.data hbne hlastc]
    unfold joinLines
    cases hbl : List.filter isBlankLine (pysplitlines b) with
    | nil =>
      rw [List.append_nil, hsplit, joinNl_splitOnNl]
      show pystrip ⟨b.data⟩ = b
      cases b with
      | mk d => exact h
    | cons w ws =>
      rw [List.map_append, hsplit,
        joinNl_append (splitOnNl b.data) _ (splitOnNl_ne_nil b.data) (by simp),
        joinNl_splitOnNl]
      unfold pystrip
      have hwall : ∀ c ∈ '\n' :: joinNl (List.map String.data (w :: ws)),
          c.isWhitespace = true := by
        intro c hc
        rcases List.mem_cons.mp hc with hc | hc
        · subst hc; rfl
        · refine ws_joinNl _ ?_ c hc
          intro l hl c' hc'
          rw [List.mem_map] at hl
          obtain ⟨sl, hsl, hsl2⟩ := hl
          have hslb : isBlankLine sl = true := by
            have hmem : sl ∈ List.filter isBlankLine (pysplitlines b) := by
              rw [hbl]; exact hsl
            exact (List.mem_filter.mp hmem).2
          exact all_ws_of_blank sl hslb c' (by rw [hsl2]; exact hc')
      rw [trimL_append_ws b.data _ hdata hbne hwall]

/-- The non-blank lines of a body. -/
def nonBlankLines (b : String) : List String :=
  (pysplitlines b).filter (fun l => !isBlankLine l)

/-- C4 counterexample: merging the body `"  a"` with itself yields `"a"`
(the final whole-string strip removes the leading spaces), so the non-blank
line multiset is not preserved for arbitrary bodies. -/
theorem dedup_idempotence_cex :
    dictGet (merge_agents_content [("k", "  a")] [("k", "  a")]) "k" = some "a" ∧
    Multiset.ofList (nonBlankLines "a") ≠ Multiset.ofList (nonBlankLines "  a") := by
  constructor
  · decide
  · decide

/-- C4 amended: for every body with no leading or trailing whitespace (as
every parser- or merger-produced body is), merging a singleton map with
itself returns the map unchanged — the merged body is the original body, so
in particular its multiset of non-blank lines equals the original's. -/
theorem dedup_idempotence_trimmed (k b : String) (h : pystrip b = b) :
    merge_agents_content [(k, b)] [(k, b)] = [(k, b)] ∧
    Multiset.ofList
        (nonBlankLines ((dictGet (merge_agents_content [(k, b)] [(k, b)]) k).getD "")) =
      Multiset.ofList (nonBlankLines b) := by
  have h1 : merge_agents_content [(k, b)] [(k, b)] = [(k, b)] := by
    unfold merge_agents_content
    rw [List.foldl_cons, List.foldl_nil]
    by_cases hsb : pystrip b = ""
    · rw [if_pos hsb]
    · rw [if_neg hsb]
      show (match dictGet [(k, b)] k with
        | some eb => dictSet [(k, b)] k (mergeBody eb b)
        | none => [(k, b)] ++ [(k, pystrip b)]) = [(k, b)]
      rw [show dictGet [(k, b)] k = some b from by rw [dictGet, if_pos rfl]]
      show dictSet [(k, b)] k (mergeBody b b) = [(k, b)]
      rw [dictSet, if_pos rfl, mergeBody_self b h]
  refine ⟨h1, ?_⟩
  rw [h1]
  rw [show dictGet [(k, b)] k = some b from by rw [dictGet, if_pos rfl]]
  rfl

/-- C4 witness: the amended claim at a concrete two-item list body. -/
theorem dedup_idempotence_trimmed_witness :
    pystrip "* Rule A\n\n* Rule B" = "* Rule A\n\n* Rule B" ∧
    merge_agents_content [("k", "* Rule A\n\n* Rule B")] [("k", "* Rule A\n\n* Rule B")] =
        [("k", "* Rule A\n\n* Rule B")] ∧
    Multiset.ofList
        (nonBlankLines ((dictGet
          (merge_agents_content [("k", "* Rule A\n\n* Rule B")]
            [("k", "* Rule A\n\n* Rule B")]) "k").getD "")) =
      Multiset.ofList (nonBlankLines "* Rule A\n\n* Rule B") :=
  ⟨by decide, dedup_idempotence_trimmed "k" "* Rule A\n\n* Rule B" (by decide)⟩

/-! ## A single-pass line scanner equal to the parser

`scanP` consumes the line list once, tracking the fence state and the open
section (key plus accumulated body lines); it produces the same occurrence
list as `sectionPairs`.  This reformulation lets rendered documents be
analyzed block by block without index arithmetic. -/

def pushLine (cur : Option (String × List String)) (l : String) :
    Option (String × List String) :=
  match cur with
  | none => none
  | some kb => some (kb.1, kb.2 ++ [l])

def emitCur (cur : Option (String × List String)) : List (String × String) :=
  match cur with
  | none => []
  | some kb => [(kb.1, pystrip (joinLines kb.2))]

def scanP : List String → Bool → Option (String × List String) → List (String × String)
  | [], _, cur => emitCur cur
  | l :: reSt, f, cur =>
    if isFenceLine l then scanP reSt (!f) (pushLine cur l)
    else if f then scanP reSt f (pushLine cur l)
    else if isH2Line l then emitCur cur ++ scanP reSt f (some (keyOfHeadingLine l, []))
    else scanP reSt f (pushLine cur l)

theorem scanP_some_eq_pairsAux (rem : List String) :
    ∀ (done : List String) (f : Bool) (k : String) (st0 : Nat), st0 ≤ done.length →
    scanP rem f (some (k, done.drop st0)) =
      pairsAux (done ++ rem) k st0 (hIdxAux rem f done.length) := by
  induction rem with
  | nil =>
    intro done f k st0 hst
    show emitCur (some (k, done.drop st0)) = pairsAux (done ++ []) k st0 []
    rw [List.append_nil]
    show [(k, pystrip (joinLines (done.drop st0)))] =
      [(k, pystrip (joinLines ((done.drop st0).take (done.length - st0))))]
    rw [← List.length_drop, List.take_length]
  | cons l rem' ih =>
    intro done f k st0 hst
    have hdrop : done.drop st0 ++ [l] = (done ++ [l]).drop st0 :=
      (List.drop_append_of_le_length hst).symm
    have hlen : (done ++ [l]).length = done.length + 1 := by simp
    have hassoc : (done ++ [l]) ++ rem' = done ++ l :: rem' := by simp
    rw [scanP, hIdxAux]
    by_cases hf : isFenceLine l
    · rw [if_pos hf, if_pos hf]
      show scanP rem' (!f) (some (k, done.drop st0 ++ [l])) = _
      rw [hdrop, ih (done ++ [l]) (!f) k st0 (by omega), hlen, hassoc]
    · rw [if_neg hf, if_neg hf]
      by_cases hst2 : f
      · rw [if_pos hst2, if_pos hst2]
        show scanP rem' f (some (k, done.drop st0 ++ [l])) = _
        rw [hdrop, ih (done ++ [l]) f k st0 (by omega), hlen, hassoc]
      · rw [if_neg hst2, if_neg hst2]
        by_cases hh : isH2Line l
        · rw [if_pos hh, if_pos hh]
          rw [pairsAux]
          have hbody : bodyOf (done ++ l :: rem') st0 done.length =
              pystrip (joinLines (done.drop st0)) := by
            unfold bodyOf
            rw [List.drop_append_of_le_length hst,
              List.take_left' (by rw [List.length_drop])]
          have hgetD : (done ++ l :: rem').getD done.length "" = l := by
            rw [List.getD_eq_getElem?_getD,
              List.getElem?_append_right (Nat.le_refl done.length)]
            simp
          have hnew : ([] : List String) = (done ++ [l]).drop (done.length + 1) := by
            rw [← hlen, List.drop_length]
          show (k, pystrip (joinLines (done.drop st0))) ::
              scanP rem' f (some (keyOfHeadingLine l, [])) = _
          rw [hbody, hgetD]
          refine congrArg _ ?_
          rw [show (some (keyOfHeadingLine l, ([] : List String))) =
            some (keyOfHeadingLine l, (done ++ [l]).drop (done.length + 1)) from by
              rw [← hnew]]
          rw [ih (done ++ [l]) f (keyOfHeadingLine l) (done.length + 1) (by simp),
            hlen, hassoc]
        · rw [if_neg hh, if_neg hh]
          show scanP rem' f (some (k, done.drop st0 ++ [l])) = _
          rw [hdrop, ih (done ++ [l]) f k st0 (by omega), hlen, hassoc]

theorem scanP_none_eq (rem : List String) :
    ∀ (done : List String) (f : Bool),
    scanP rem f none =
      match hIdxAux rem f done.length with
      | [] => []
      | i :: hs =>
        pairsAux (done ++ rem) (keyOfHeadingLine ((done ++ rem).getD i "")) (i + 1) hs := by
  induction rem with
  | nil => intro done f; rfl
  | cons l rem' ih =>
    intro done f
    have hlen : (done ++ [l]).length = done.length + 1 := by simp
    have hassoc : (done ++ [l]) ++ rem' = done ++ l :: rem' := by simp
    rw [scanP, hIdxAux]
    by_cases hf : isFenceLine l
    · rw [if_pos hf, if_pos hf]
      show scanP rem' (!f) none = _
      rw [ih (done ++ [l]) (!f), hlen, hassoc]
    · rw [if_neg hf, if_neg hf]
      by_cases hst2 : f
      · rw [if_pos hst2, if_pos hst2]
        show scanP rem' f none = _
        rw [ih (done ++ [l]) f, hlen, hassoc]
      · rw [if_neg hst2, if_neg hst2]
        by_cases hh : isH2Line l
        · rw [if_pos hh, if_pos hh]
          have hgetD : (done ++ l :: rem').getD done.length "" = l := by
            rw [List.getD_eq_getElem?_getD,
              List.getElem?_append_right (Nat.le_refl done.length)]
            simp
          show ([] : List (String × String)) ++
              scanP rem' f (some (keyOfHeadingLine l, [])) = _
          rw [List.nil_append]
          rw [show (some (keyOfHeadingLine l, ([] : List String))) =
            some (keyOfHeadingLine l, (done ++ [l]).drop (done.length + 1)) from by
              rw [← hlen, List.drop_length]]
          rw [scanP_some_eq_pairsAux rem' (done ++ [l]) f (keyOfHeadingLine l)
            (done.length + 1) (by simp), hlen, hassoc]
          show _ = pairsAux (done ++ l :: rem')
            (keyOfHeadingLine ((done ++ l :: rem').getD done.length ""))
            (done.length + 1) (hIdxAux rem' f (done.length + 1))
          rw [hgetD]
        · rw [if_neg hh, if_neg hh]
          show scanP rem' f none = _
          rw [ih (done ++ [l]) f, hlen, hassoc]

/-- The scanner produces exactly the parser's occurrence list. -/
theorem scanP_eq_sectionPairs (lines : List String) :
    scanP lines false none = sectionPairs lines := by
  have h := scanP_none_eq lines [] false
  rw [List.nil_append] at h
  rw [h]
  rfl

/-! ## More split/join/count lemmas -/

theorem splitOnNl_append_nl (a b : List Char) :
    splitOnNl (a ++ '\n' :: b) = splitOnNl a ++ splitOnNl b := by
  induction a with
  | nil =>
    rw [List.nil_append, splitOnNl_cons_nl]
    rfl
  | cons c a' ih =>
    by_cases hc : c = '\n'
    · subst hc
      rw [List.cons_append, splitOnNl_cons_nl, splitOnNl_cons_nl, ih]
      rfl
    · rw [List.cons_append, splitOnNl_cons_ne c _ hc, splitOnNl_cons_ne c _ hc, ih]
      cases hs : splitOnNl a' with
      | nil => exact absurd hs (splitOnNl_ne_nil a')
      | cons x xs => rfl

theorem splitOnNl_no_nl (l : List Char) (h : '\n' ∉ l) : splitOnNl l = [l] := by
  induction l with
  | nil => rfl
  | cons c reSt ih =>
    have hc : ¬c = '\n' := fun hcc => h (by rw [hcc]; exact List.mem_cons_self _ _)
    rw [splitOnNl_cons_ne c reSt hc,
      ih (fun hm => h (List.mem_cons_of_mem c hm))]

theorem countTB_no_backtick (l : List Char) (h : '`' ∉ l) : countTB l = 0 := by
  induction l using countTB.induct with
  | case1 reSt ih => exact absurd (List.mem_cons_self _ _) h
  | case2 x reSt hx ih =>
    rw [countTB_cons_ne x reSt hx]
    exact ih (fun hm => h (List.mem_cons_of_mem x hm))
  | case3 => rfl

theorem countTB_joinNl (ps : List (List Char)) :
    countTB (joinNl ps) = (ps.map (fun p => countTB p)).sum := by
  induction ps with
  | nil => rfl
  | cons x t ih =>
    cases t with
    | nil => show countTB x = countTB x + 0; omega
    | cons y u =>
      rw [joinNl_cons_cons, countTB_nl_split, ih]
      simp [List.sum_cons]

/-! ## More whitespace-trim lemmas -/

theorem trimL_ws_front (w x : List Char) (hw : ∀ c ∈ w, c.isWhitespace = true) :
    trimL (w ++ x) = trimL x := by
  unfold trimL
  rw [dropWhile_append_all _ w x hw]

theorem trimL_ws_suffix (x w : List Char) (hw : ∀ c ∈ w, c.isWhitespace = true) :
    trimL (x ++ w) = trimL x := by
  unfold trimL
  cases hdx : List.dropWhile Char.isWhitespace x with
  | nil =>
    have hx : ∀ c ∈ x, c.isWhitespace = true := List.dropWhile_eq_nil_iff.mp hdx
    rw [dropWhile_append_all _ x w hx,
      show List.dropWhile Char.isWhitespace w = [] from
        List.dropWhile_eq_nil_iff.mpr hw]
  | cons y ys =>
    rw [List.dropWhile_append, hdx]
    rw [show ((y :: ys : List Char).isEmpty) = false from rfl]
    rw [if_neg (by simp)]
    rw [show y :: ys ++ w = (y :: ys) ++ w from rfl]
    rw [List.reverse_append]
    rw [dropWhile_append_all _ w.reverse (y :: ys).reverse
      (fun c hc => hw c (by simpa using hc))]

theorem trimL_cons_nonws (c : Char) (rest : List Char) (hc : c.isWhitespace = false) :
    ∃ t, trimL (c :: rest) = c :: t := by
  unfold trimL
  rw [List.dropWhile_cons, if_neg (by rw [hc]; simp)]
  rw [show ((c :: rest : List Char)).reverse = rest.reverse ++ [c] by simp]
  rw [List.dropWhile_append]
  by_cases hd : (List.dropWhile Char.isWhitespace rest.reverse).isEmpty = true
  · rw [if_pos hd, List.dropWhile_cons, if_neg (by rw [hc]; simp)]
    exact ⟨[], rfl⟩
  · rw [if_neg hd, List.reverse_append]
    exact ⟨(List.dropWhile Char.isWhitespace rest.reverse).reverse, rfl⟩

/-! ## Line-shape lemmas for rendered blocks -/

theorem isH2Line_block (H : String) : isH2Line ("## " ++ H) = true := rfl

theorem isFenceLine_cons_nonws (c : Char) (rest : List Char)
    (hws : c.isWhitespace = false) (hbt : c ≠ '`') :
    isFenceLine ⟨c :: rest⟩ = false := by
  unfold isFenceLine
  obtain ⟨t, ht⟩ := trimL_cons_nonws c rest hws
  show (match trimL (c :: rest) with
    | '`' :: '`' :: '`' :: _ => true
    | _ => false) = false
  rw [ht]
  split
  · rename_i heq
    injection heq with h1 h2
    exact absurd h1 hbt
  · rfl

theorem isFenceLine_block (H : String) : isFenceLine ("## " ++ H) = false := by
  have h : ("## " ++ H) = ⟨'#' :: '#' :: ' ' :: H.data⟩ := by
    cases H with
    | mk d => rfl
  rw [h]
  exact isFenceLine_cons_nonws '#' _ rfl (by decide)

theorem headingTextOf_block (H : String) : headingTextOf ("## " ++ H) = pystrip H := by
  show (⟨trimL (' ' :: H.data)⟩ : String) = pystrip H
  rw [show (' ' :: H.data) = [' '] ++ H.data from rfl,
    trimL_ws_front [' '] H.data (by intro c hc; simp at hc; rw [hc]; rfl)]
  rfl

theorem title_not_h2 (r : String) : isH2Line ("# AGENTS.md — " ++ r) = false := rfl

theorem title_not_fence (r : String) : isFenceLine ("# AGENTS.md — " ++ r) = false := by
  have h : ("# AGENTS.md — " ++ r) = ⟨'#' :: (" AGENTS.md — ".data ++ r.data)⟩ := by
    cases r with
    | mk d => rfl
  rw [h]
  exact isFenceLine_cons_nonws '#' _ rfl (by decide)

theorem blank_not_fence : isFenceLine "" = false := rfl

theorem blank_not_h2 : isH2Line "" = false := rfl

/-! ## Well-formed bodies and rendered blocks -/

/-- A body's line list is scan-safe from fence state `f`: no line is
recognized as a heading and the scan ends outside a fence. -/
def bodyLinesOk : List String → Bool → Bool
  | [], f => !f
  | l :: reSt, f =>
    if isFenceLine l then bodyLinesOk reSt (!f)
    else if f then bodyLinesOk reSt f
    else if isH2Line l then false
    else bodyLinesOk reSt f

theorem if_bool_false {α : Sort _} (a b : α) : (if false = true then a else b) = b := rfl

theorem if_bool_true {α : Sort _} (a b : α) : (if true = true then a else b) = a := rfl

/-- A scan-safe line block is absorbed into the open section. -/
theorem scanP_body (ls : List String) :
    ∀ (rest : List String) (f : Bool) (k : String) (acc : List String),
    bodyLinesOk ls f = true →
    scanP (ls ++ rest) f (some (k, acc)) = scanP rest false (some (k, acc ++ ls)) := by
  induction ls with
  | nil =>
    intro rest f k acc h
    have hf : f = false := by
      cases f
      · rfl
      · exact absurd h (by rw [bodyLinesOk]; simp)
    rw [hf, List.nil_append, List.append_nil]
  | cons l ls' ih =>
    intro rest f k acc h
    rw [bodyLinesOk] at h
    rw [List.cons_append, scanP]
    by_cases hf : isFenceLine l
    · rw [if_pos hf] at h ⊢
      show scanP (ls' ++ rest) (!f) (some (k, acc ++ [l])) = _
      rw [ih rest (!f) k (acc ++ [l]) h, List.append_assoc]
      rfl
    · rw [if_neg hf] at h ⊢
      by_cases hst : f
      · rw [if_pos hst] at h ⊢
        show scanP (ls' ++ rest) f (some (k, acc ++ [l])) = _
        rw [ih rest f k (acc ++ [l]) h, List.append_assoc]
        rfl
      · rw [if_neg hst] at h ⊢
        by_cases hh : isH2Line l
        · rw [if_pos hh] at h
          exact absurd h (by simp)
        · rw [if_neg hh] at h ⊢
          show scanP (ls' ++ rest) f (some (k, acc ++ [l])) = _
          rw [ih rest f k (acc ++ [l]) h, List.append_assoc]
          rfl

/-- The line rendering of a list of `(key, heading, body)` blocks: each
block is `## heading`, a blank line, then the body's lines; blocks are
separated by one blank line. -/
def entryLinesList : List (String × String × String) → List String
  | [] => []
  | e :: [] => ("## " ++ e.2.1) :: "" :: pysplitlines e.2.2
  | e :: e2 :: es =>
    (("## " ++ e.2.1) :: "" :: pysplitlines e.2.2 ++ [""]) ++ entryLinesList (e2 :: es)

/-- A well-formed rendered block: the heading line maps back to the block's
key, the body is scan-safe, trim-fixed and non-empty, heading and body are
single-line/backtick-clean enough for fence accounting, and the key is
non-empty — a truthy key, so the re-parsing loop's `if current_key:` guard
actually stores the block's section. -/
def entryOk (e : String × String × String) : Bool :=
  decide (keyOfHeadingLine ("## " ++ e.2.1) = e.1) &&
  bodyLinesOk (pysplitlines e.2.2) false &&
  decide (pystrip e.2.2 = e.2.2) && decide (e.2.2 ≠ "") &&
  decide ('\n' ∉ e.2.1.data) && decide ('`' ∉ e.2.1.data) &&
  decide (countTB e.2.2.data % 2 = 0) &&
  decide (e.1 ≠ "")

theorem map_data_pysplitlines_trimmed (B : String) (h : pystrip B = B)
    (hne : B ≠ "") : (pysplitlines B).map String.data = splitOnNl B.data := by
  have hdata : trimL B.data = B.data := congrArg String.data h
  have hbne : B.data ≠ [] := by
    intro hc
    refine hne ?_
    cases B with
    | mk d =>
      simp at hc
      rw [hc]
  have hlastc : ∀ c, B.data.getLast? = some c → c ≠ '\n' := by
    intro c hc hn
    have := getLast?_trimL B.data c (by rw [hdata]; exact hc)
    rw [hn] at this
    simp [Char.isWhitespace] at this
  rw [map_data_pysplitlines, pysplitlinesL_eq_splitOnNl B.data hbne hlastc]

theorem joinNl_blank_body (B : String) (h : pystrip B = B) (hne : B ≠ "") :
    joinNl (([] : List Char) :: (pysplitlines B).map String.data) = '\n' :: B.data := by
  rw [map_data_pysplitlines_trimmed B h hne]
  cases hs : splitOnNl B.data with
  | nil => exact absurd hs (splitOnNl_ne_nil B.data)
  | cons x xs =>
    rw [joinNl_cons_cons, ← hs, joinNl_splitOnNl]
    rfl

theorem bodyRound1 (B : String) (h : pystrip B = B) (hne : B ≠ "") :
    pystrip (joinLines ("" :: pysplitlines B)) = B := by
  unfold joinLines
  rw [List.map_cons]
  rw [show ("" : String).data = ([] : List Char) from rfl]
  rw [joinNl_blank_body B h hne]
  unfold pystrip
  rw [show ('\n' :: B.data) = ['\n'] ++ B.data from rfl,
    trimL_ws_front ['\n'] B.data (by intro c hc; simp at hc; rw [hc]; rfl)]
  exact h

theorem bodyRound2 (B : String) (h : pystrip B = B) (hne : B ≠ "") :
    pystrip (joinLines (("" :: pysplitlines B) ++ [""])) = B := by
  unfold joinLines
  rw [List.map_append, List.map_cons]
  rw [show ("" : String).data = ([] : List Char) from rfl]
  rw [show List.map String.data [""] = ([[]] : List (List Char)) from rfl]
  rw [joinNl_append _ _ (by simp) (by simp)]
  rw [joinNl_blank_body B h hne]
  rw [show joinNl ([[]] : List (List Char)) = [] from rfl]
  unfold pystrip
  rw [show ('\n' :: B.data ++ '\n' :: [] : List Char) =
    ['\n'] ++ (B.data ++ ['\n']) from by simp]
  rw [trimL_ws_front ['\n'] _ (by intro c hc; simp at hc; rw [hc]; rfl)]
  rw [trimL_ws_suffix B.data ['\n'] (by intro c hc; simp at hc; rw [hc]; rfl)]
  exact h

/-- Scanning the rendered blocks emits exactly the pending section followed
by one `(key, body)` pair per block. -/
theorem scanP_entryLines :
    ∀ (entries : List (String × String × String)),
    (∀ e ∈ entries, entryOk e = true) →
    ∀ (cur : Option (String × List String)),
    scanP (entryLinesList entries) false cur =
      emitCur cur ++ entries.map (fun e => (e.1, e.2.2)) := by
  intro entries
  induction entries with
  | nil =>
    intro _ cur
    rw [entryLinesList, scanP, List.map_nil, List.append_nil]
  | cons e es ih =>
    intro hok cur
    have hek := hok e (List.mem_cons_self e es)
    simp only [entryOk, Bool.and_eq_true, decide_eq_true_eq] at hek
    obtain ⟨⟨⟨⟨⟨⟨⟨hkey, hbodyok⟩, htrim⟩, hne⟩, hnl⟩, hbt⟩, hcount⟩, hkne⟩ := hek
    have h1 : isFenceLine ("## " ++ e.2.1) = false := isFenceLine_block _
    have h2 : isH2Line ("## " ++ e.2.1) = true := isH2Line_block _
    cases es with
    | nil =>
      show scanP (("## " ++ e.2.1) :: "" :: pysplitlines e.2.2) false cur = _
      rw [scanP, h1, if_bool_false, if_bool_false, h2, if_bool_true, hkey]
      refine congrArg _ ?_
      show scanP (pysplitlines e.2.2) false (some (e.1, [""])) = _
      rw [show pysplitlines e.2.2 = pysplitlines e.2.2 ++ [] from by simp]
      rw [scanP_body _ [] false e.1 [""] hbodyok]
      show emitCur (some (e.1, [""] ++ pysplitlines e.2.2)) = _
      show [(e.1, pystrip (joinLines ("" :: pysplitlines e.2.2)))] = _
      rw [bodyRound1 e.2.2 htrim hne]
      rfl
    | cons e2 es' =>
      show scanP (((("## " ++ e.2.1) :: "" :: pysplitlines e.2.2) ++ [""]) ++
        entryLinesList (e2 :: es')) false cur = _
      rw [List.append_assoc, List.cons_append, List.cons_append]
      rw [scanP.eq_2, h1, if_bool_false, if_bool_false, h2, if_bool_true, hkey]
      refine congrArg _ ?_
      show scanP (pysplitlines e.2.2 ++ ([""] ++ entryLinesList (e2 :: es')))
        false (some (e.1, [""])) = _
      rw [scanP_body _ ([""] ++ entryLinesList (e2 :: es')) false e.1 [""] hbodyok]
      show scanP (entryLinesList (e2 :: es')) false
        (some (e.1, ([""] ++ pysplitlines e.2.2) ++ [""])) = _
      rw [ih (fun x hx => hok x (List.mem_cons_of_mem e hx))]
      show (e.1, pystrip (joinLines (("" :: pysplitlines e.2.2) ++ [""]))) :: _ = _
      rw [bodyRound2 e.2.2 htrim hne]
      rfl

/-! ## Splitting a rendered document back into its lines -/

/-- The rendered part of one `(key, heading, body)` block. -/
def blockPart (e : String × String × String) : String :=
  "## " ++ e.2.1 ++ "\n\n" ++ e.2.2 ++ "\n"

theorem splitOnNl_joinNl_flatten (ps : List (List Char)) (hne : ps ≠ []) :
    splitOnNl (joinNl ps) = (ps.map splitOnNl).flatten := by
  induction ps with
  | nil => exact absurd rfl hne
  | cons x t ih =>
    cases t with
    | nil =>
      show splitOnNl (joinNl [x]) = splitOnNl x ++ [].flatten
      rw [show joinNl [x] = x from rfl]
      simp
    | cons y u =>
      rw [joinNl_cons_cons, splitOnNl_append_nl, ih (by simp)]
      rfl

theorem title_split (r : String) (hrnl : '\n' ∉ r.data) :
    splitOnNl ("# AGENTS.md — " ++ r ++ "\n").data =
      [("# AGENTS.md — " ++ r).data, []] := by
  have h1 : ("# AGENTS.md — " ++ r ++ "\n").data =
      ("# AGENTS.md — " ++ r).data ++ '\n' :: [] := by
    simp [String.data_append, show ("\n" : String).data = ['\n'] from rfl]
  rw [h1, splitOnNl_append_nl,
    splitOnNl_no_nl _ (by
      rw [String.data_append]
      intro hm
      rcases List.mem_append.mp hm with hm | hm
      · revert hm
        decide
      · exact hrnl hm)]
  rfl

/-- The chunk list of one rendered block. -/
def splitBlock (e : String × String × String) : List (List Char) :=
  ("## " ++ e.2.1).data :: [] :: (splitOnNl e.2.2.data ++ [[]])

theorem block_split (e : String × String × String) (hnl : '\n' ∉ e.2.1.data) :
    splitOnNl (blockPart e).data = splitBlock e := by
  have h1 : (blockPart e).data =
      ("## " ++ e.2.1).data ++ '\n' :: ('\n' :: (e.2.2.data ++ '\n' :: [])) := by
    unfold blockPart
    simp [String.data_append, show ("\n" : String).data = ['\n'] from rfl,
      show ("\n\n" : String).data = ['\n', '\n'] from rfl]
  rw [h1, splitOnNl_append_nl, splitOnNl_cons_nl, splitOnNl_append_nl,
    splitOnNl_no_nl _ (by
      rw [String.data_append]
      intro hm
      rcases List.mem_append.mp hm with hm | hm
      · revert hm
        decide
      · exact hnl hm)]
  rfl

theorem entryOk_trim (e : String × String × String) (h : entryOk e = true) :
    pystrip e.2.2 = e.2.2 := by
  simp only [entryOk, Bool.and_eq_true, decide_eq_true_eq] at h
  exact h.1.1.1.1.1.2

theorem entryOk_ne (e : String × String × String) (h : entryOk e = true) :
    e.2.2 ≠ "" := by
  simp only [entryOk, Bool.and_eq_true, decide_eq_true_eq] at h
  exact h.1.1.1.1.2

theorem entryOk_heading_nl (e : String × String × String) (h : entryOk e = true) :
    '\n' ∉ e.2.1.data := by
  simp only [entryOk, Bool.and_eq_true, decide_eq_true_eq] at h
  exact h.1.1.1.2

theorem entryChunks (entries : List (String × String × String))
    (hok : ∀ e ∈ entries, entryOk e = true) (hne : entries ≠ []) :
    (entryLinesList entries).map String.data ++ [[]] =
      (entries.map splitBlock).flatten := by
  induction entries with
  | nil => exact absurd rfl hne
  | cons e es ih =>
    have he := hok e (List.mem_cons_self e es)
    cases es with
    | nil =>
      show (List.map String.data (("## " ++ e.2.1) :: "" :: pysplitlines e.2.2)) ++ [[]] = _
      rw [List.map_cons, List.map_cons,
        map_data_pysplitlines_trimmed e.2.2 (entryOk_trim e he) (entryOk_ne e he)]
      show ("## " ++ e.2.1).data :: [] :: (splitOnNl e.2.2.data) ++ [[]] = _
      show ("## " ++ e.2.1).data :: [] :: ((splitOnNl e.2.2.data) ++ [[]]) = _
      simp [splitBlock]
    | cons e2 es' =>
      show (List.map String.data ((("## " ++ e.2.1) :: "" :: pysplitlines e.2.2 ++ [""]) ++
        entryLinesList (e2 :: es'))) ++ [[]] = _
      rw [List.map_append, List.map_append, List.map_cons, List.map_cons,
        map_data_pysplitlines_trimmed e.2.2 (entryOk_trim e he) (entryOk_ne e he)]
      rw [show List.map String.data [""] = ([[]] : List (List Char)) from rfl]
      rw [List.append_assoc,
        ih (fun x hx => hok x (List.mem_cons_of_mem e hx)) (by simp)]
      show (("## " ++ e.2.1).data :: [] :: splitOnNl e.2.2.data ++ [[]]) ++
        (List.map splitBlock (e2 :: es')).flatten = _
      rw [show (e :: e2 :: es').map splitBlock = splitBlock e :: (e2 :: es').map splitBlock
        from rfl]
      rw [List.flatten_cons]
      rfl

theorem pysplitlines_doc (r : String) (entries : List (String × String × String))
    (hrnl : '\n' ∉ r.data)
    (hok : ∀ e ∈ entries, entryOk e = true) (hne : entries ≠ []) :
    pysplitlines (joinLines (("# AGENTS.md — " ++ r ++ "\n") :: entries.map blockPart)) =
      ("# AGENTS.md — " ++ r) :: "" :: entryLinesList entries := by
  unfold pysplitlines joinLines
  rw [show (⟨joinNl (List.map String.data
      (("# AGENTS.md — " ++ r ++ "\n") :: List.map blockPart entries))⟩ : String).data =
    joinNl (List.map String.data
      (("# AGENTS.md — " ++ r ++ "\n") :: List.map blockPart entries)) from rfl]
  rw [List.map_cons, List.map_map]
  rw [show (String.data ∘ blockPart) = fun e => (blockPart e).data from rfl]
  unfold pysplitlinesL
  rw [if_neg (by
    intro hc
    have : joinNl (("# AGENTS.md — " ++ r ++ "\n").data ::
        List.map (fun e => (blockPart e).data) entries) ≠ [] := by
      cases hes : List.map (fun e => (blockPart e).data) entries with
      | nil =>
        show joinNl [("# AGENTS.md — " ++ r ++ "\n").data] ≠ []
        show ("# AGENTS.md — " ++ r ++ "\n").data ≠ []
        rw [String.data_append]
        simp
      | cons p ps =>
        rw [joinNl_cons_cons]
        rw [String.data_append]
        simp
    exact this hc)]
  rw [splitOnNl_joinNl_flatten _ (by simp)]
  rw [List.map_cons, title_split r hrnl, List.flatten_cons, List.map_map]
  rw [show (splitOnNl ∘ fun e => (blockPart e).data) =
    fun (e : String × String × String) => splitOnNl (blockPart e).data from rfl]
  rw [show List.map (fun (e : String × String × String) => splitOnNl (blockPart e).data) entries =
    List.map splitBlock entries from by
      refine List.map_congr_left ?_
      intro e hee
      exact block_split e (entryOk_heading_nl e (hok e hee))]
  rw [← entryChunks entries hok hne]
  rw [show ([("# AGENTS.md — " ++ r).data, []] ++
      ((entryLinesList entries).map String.data ++ [[]])) =
    (("# AGENTS.md — " ++ r).data :: [] :: (entryLinesList entries).map String.data)
      ++ [[]] from by simp]
  rw [if_pos (by rw [List.getLast?_concat])]
  rw [List.dropLast_concat]
  rw [List.map_cons, List.map_cons, List.map_map]
  rw [show ((fun c => (⟨c⟩ : String)) ∘ String.data) = id from rfl, List.map_id]

/-! ## The compiler's parts as rendered blocks -/

/-- The schema blocks emitted for a processed map: one per schema entry
whose stripped body is non-blank. -/
def schemaTriples (processed : List (String × String)) (style : String) :
    List (String × String × String) :=
  (styleHeadings style).filterMap (fun kh =>
    if pystrip ((dictGet processed kh.1).getD "") ≠ "" then
      some (kh.1, kh.2, pystrip ((dictGet processed kh.1).getD ""))
    else none)

/-- The custom blocks: entries whose key is outside the schema, with
non-blank body, keyed and headed by the raw key. -/
def customTriples (processed : List (String × String)) (style : String) :
    List (String × String × String) :=
  processed.filterMap (fun kv =>
    if !elemStr kv.1 ((styleHeadings style).map Prod.fst) && pystrip kv.2 ≠ "" then
      some (kv.1, kv.1, kv.2)
    else none)

def docTriples (processed : List (String × String)) (style : String) :
    List (String × String × String) :=
  schemaTriples processed style ++ customTriples processed style

theorem renderSchema_foldl (processed : List (String × String)) :
    ∀ (hs : List (String × String)) (ps seen : List String),
    hs.foldl
      (fun (acc : List String × List String) kh =>
        let content := pystrip ((dictGet processed kh.1).getD "")
        let ps :=
          if content ≠ "" then acc.1 ++ ["## " ++ kh.2 ++ "\n\n" ++ content ++ "\n"]
          else acc.1
        (ps, acc.2 ++ [kh.1]))
      (ps, seen) =
    (ps ++ (hs.filterMap (fun kh =>
        if pystrip ((dictGet processed kh.1).getD "") ≠ "" then
          some (kh.1, kh.2, pystrip ((dictGet processed kh.1).getD ""))
        else none)).map blockPart,
     seen ++ hs.map Prod.fst) := by
  intro hs
  induction hs with
  | nil => intro ps seen; simp
  | cons kh t ih =>
    intro ps seen
    rw [List.foldl_cons]
    show t.foldl _
      ((if pystrip ((dictGet processed kh.1).getD "") ≠ "" then
          ps ++ ["## " ++ kh.2 ++ "\n\n" ++ pystrip ((dictGet processed kh.1).getD "") ++ "\n"]
        else ps), seen ++ [kh.1]) = _
    by_cases hc : pystrip ((dictGet processed kh.1).getD "") ≠ ""
    · rw [if_pos hc, ih, List.filterMap_cons, if_pos hc]
      show (_, _) = (ps ++ (((kh.1, kh.2, pystrip ((dictGet processed kh.1).getD "")) ::
        t.filterMap _).map blockPart), _)
      rw [List.map_cons]
      show (_, _) = (ps ++ (blockPart (kh.1, kh.2, pystrip ((dictGet processed kh.1).getD "")) ::
        (t.filterMap _).map blockPart), _)
      refine Prod.ext ?_ ?_
      · show (ps ++ ["## " ++ kh.2 ++ "\n\n" ++ pystrip ((dictGet processed kh.1).getD "") ++ "\n"])
          ++ _ = _
        rw [List.append_assoc]
        rfl
      · show (seen ++ [kh.1]) ++ t.map Prod.fst = seen ++ (kh :: t).map Prod.fst
        rw [List.append_assoc]
        rfl
    · rw [if_neg hc, ih, List.filterMap_cons, if_neg hc]
      refine Prod.ext rfl ?_
      show (seen ++ [kh.1]) ++ t.map Prod.fst = seen ++ (kh :: t).map Prod.fst
      rw [List.append_assoc]
      rfl

theorem renderCustom_foldl (seen : List String) :
    ∀ (pl : List (String × String)) (ps : List String),
    pl.foldl
      (fun ps kv =>
        if !elemStr kv.1 seen && pystrip kv.2 ≠ "" then
          ps ++ ["## " ++ kv.1 ++ "\n\n" ++ kv.2 ++ "\n"]
        else ps)
      ps =
    ps ++ (pl.filterMap (fun kv =>
        if !elemStr kv.1 seen && pystrip kv.2 ≠ "" then some (kv.1, kv.1, kv.2)
        else none)).map blockPart := by
  intro pl
  induction pl with
  | nil => intro ps; simp
  | cons kv t ih =>
    intro ps
    rw [List.foldl_cons]
    by_cases hc : (!elemStr kv.1 seen && pystrip kv.2 ≠ "") = true
    · rw [if_pos hc, ih, List.filterMap_cons, if_pos hc, List.map_cons]
      show (ps ++ ["## " ++ kv.1 ++ "\n\n" ++ kv.2 ++ "\n"]) ++ _ = _
      rw [List.append_assoc]
      rfl
    · rw [if_neg hc, ih, List.filterMap_cons, if_neg hc]

theorem renderedParts_eq (processed : List (String × String)) (r style : String) :
    renderedParts processed r style =
      ("# AGENTS.md — " ++ r ++ "\n") :: (docTriples processed style).map blockPart := by
  show (List.foldl
      (fun ps kv =>
        if !elemStr kv.1 ((styleHeadings style).foldl
            (fun (acc : List String × List String) kh =>
              let content := pystrip ((dictGet processed kh.1).getD "")
              let ps :=
                if content ≠ "" then
                  acc.1 ++ ["## " ++ kh.2 ++ "\n\n" ++ content ++ "\n"]
                else acc.1
              (ps, acc.2 ++ [kh.1]))
            (["# AGENTS.md — " ++ r ++ "\n"], [])).2 && pystrip kv.2 ≠ "" then
          ps ++ ["## " ++ kv.1 ++ "\n\n" ++ kv.2 ++ "\n"]
        else ps)
      ((styleHeadings style).foldl
        (fun (acc : List String × List String) kh =>
          let content := pystrip ((dictGet processed kh.1).getD "")
          let ps :=
            if content ≠ "" then
              acc.1 ++ ["## " ++ kh.2 ++ "\n\n" ++ content ++ "\n"]
            else acc.1
          (ps, acc.2 ++ [kh.1]))
        (["# AGENTS.md — " ++ r ++ "\n"], [])).1
      processed) = _
  rw [renderSchema_foldl processed (styleHeadings style)
    ["# AGENTS.md — " ++ r ++ "\n"] []]
  rw [show (("# AGENTS.md — " ++ r ++ "\n") ::
      (((styleHeadings style).filterMap (fun kh =>
        if pystrip ((dictGet processed kh.1).getD "") ≠ "" then
          some (kh.1, kh.2, pystrip ((dictGet processed kh.1).getD ""))
        else none)).map blockPart),
      ([] : List String) ++ (styleHeadings style).map Prod.fst).2 =
    (styleHeadings style).map Prod.fst from by rw [List.nil_append]]
  rw [renderCustom_foldl ((styleHeadings style).map Prod.fst) processed]
  unfold docTriples schemaTriples customTriples
  rw [List.map_append]
  rfl

/-! ## Map collapse and key lemmas -/

theorem dictGet_eq_none_of_not_mem (m : List (String × String)) (k : String)
    (h : k ∉ m.map Prod.fst) : dictGet m k = none := by
  induction m with
  | nil => rfl
  | cons kv t ih =>
    have hmem : kv.1 ∈ List.map Prod.fst (kv :: t) :=
      List.mem_map_of_mem Prod.fst (List.mem_cons_self kv t)
    have htail : k ∉ List.map Prod.fst t := by
      intro hc
      exact h (by rw [List.map_cons]; exact List.mem_cons_of_mem _ hc)
    rw [dictGet, if_neg (fun hc : kv.1 = k => h (hc ▸ hmem))]
    exact ih htail

theorem dictGet_append (A B : List (String × String)) (k : String) :
    dictGet (A ++ B) k =
      match dictGet A k with
      | some v => some v
      | none => dictGet B k := by
  induction A with
  | nil => rfl
  | cons kv t ih =>
    rw [List.cons_append, dictGet, dictGet]
    by_cases hk : kv.1 = k
    · rw [if_pos hk, if_pos hk]
    · rw [if_neg hk, if_neg hk, ih]

theorem dictSet_not_mem (m : List (String × String)) (k v : String)
    (h : k ∉ m.map Prod.fst) : dictSet m k v = m ++ [(k, v)] := by
  induction m with
  | nil => rfl
  | cons kv t ih =>
    have hmem : kv.1 ∈ List.map Prod.fst (kv :: t) :=
      List.mem_map_of_mem Prod.fst (List.mem_cons_self kv t)
    have htail : k ∉ List.map Prod.fst t := by
      intro hc
      exact h (by rw [List.map_cons]; exact List.mem_cons_of_mem _ hc)
    rw [dictSet, if_neg (fun hc : kv.1 = k => h (hc ▸ hmem))]
    rw [ih htail]
    rfl

theorem foldl_dictSet_of_nodup :
    ∀ (ps m : List (String × String)),
    (∀ k ∈ ps.map Prod.fst, k ∉ m.map Prod.fst) →
    (ps.map Prod.fst).Nodup →
    ps.foldl (fun m kv => dictSet m kv.1 kv.2) m = m ++ ps := by
  intro ps
  induction ps with
  | nil => intro m _ _; simp
  | cons kv t ih =>
    intro m hd hnd
    rw [List.foldl_cons,
      dictSet_not_mem m kv.1 kv.2 (hd kv.1 (by rw [List.map_cons]; exact List.mem_cons_self _ _))]
    rw [List.map_cons, List.nodup_cons] at hnd
    rw [ih (m ++ [(kv.1, kv.2)]) ?hdisj hnd.2]
    · simp
    case hdisj =>
      intro k hk
      rw [List.map_append]
      intro hc
      rcases List.mem_append.mp hc with hc | hc
      · exact hd k (by rw [List.map_cons]; exact List.mem_cons_of_mem _ hk) hc
      · simp at hc
        rw [hc] at hk
        exact hnd.1 hk

theorem keys_filterMap_sublist (l : List (String × String))
    (g : (String × String) → Option (String × String × String))
    (hg : ∀ x y, g x = some y → y.1 = x.1) :
    ((l.filterMap g).map (fun e => e.1)).Sublist (l.map Prod.fst) := by
  induction l with
  | nil => simp
  | cons x t ih =>
    rw [List.filterMap_cons]
    cases hgx : g x with
    | none =>
      rw [List.map_cons]
      exact (ih).cons x.1
    | some y =>
      rw [List.map_cons, List.map_cons, hg x y hgx]
      exact (ih).cons₂ x.1

theorem dictGet_proj_filterMap
    (g : (String × String) → Option (String × String × String))
    (hg : ∀ x y, g x = some y → y.1 = x.1) :
    ∀ (l : List (String × String)), (l.map Prod.fst).Nodup →
    ∀ x ∈ l,
    dictGet ((l.filterMap g).map (fun e => (e.1, e.2.2))) x.1 =
      (g x).map (fun e => e.2.2) := by
  intro l
  induction l with
  | nil => intro _ x hx; exact absurd hx (by simp)
  | cons a t ih =>
    intro hnd x hx
    rw [List.map_cons, List.nodup_cons] at hnd
    rw [List.filterMap_cons]
    rcases List.mem_cons.mp hx with hxa | hxt
    · subst hxa
      cases hga : g x with
      | none =>
        refine dictGet_eq_none_of_not_mem _ _ ?_
        intro hc
        rw [List.map_map] at hc
        have hcomp : (Prod.fst ∘ (fun (e : String × String × String) => (e.1, e.2.2))) =
            (fun (e : String × String × String) => e.1) := rfl
        rw [hcomp] at hc
        exact hnd.1 ((keys_filterMap_sublist t g hg).subset hc)
      | some y =>
        rw [List.map_cons, dictGet, if_pos (hg x y hga)]
        rfl
    · have hx1 : x.1 ∈ t.map Prod.fst := List.mem_map_of_mem Prod.fst hxt
      have hne : a.1 ≠ x.1 := fun hc => hnd.1 (hc ▸ hx1)
      cases hga : g a with
      | none => exact ih hnd.2 x hxt
      | some y =>
        rw [List.map_cons, dictGet, if_neg (by rw [hg a y hga]; exact hne)]
        exact ih hnd.2 x hxt

theorem elemStr_false_not_mem (x : String) (s : List String)
    (h : elemStr x s = false) : x ∉ s := by
  intro hc
  rw [elemStr_of_mem x s hc] at h
  exact absurd h (by simp)

theorem styleHeadings_keys_nodup (style : String) :
    ((styleHeadings style).map Prod.fst).Nodup := by
  unfold styleHeadings
  by_cases h : style = "strict"
  · rw [if_pos h]
    decide
  · rw [if_neg h]
    decide

/-! ## Fence accounting for rendered documents -/

theorem entryOk_heading_bt (e : String × String × String) (h : entryOk e = true) :
    '`' ∉ e.2.1.data := by
  simp only [entryOk, Bool.and_eq_true, decide_eq_true_eq] at h
  exact h.1.1.2

theorem entryOk_count (e : String × String × String) (h : entryOk e = true) :
    countTB e.2.2.data % 2 = 0 := by
  simp only [entryOk, Bool.and_eq_true, decide_eq_true_eq] at h
  exact h.1.2

theorem entryOk_key (e : String × String × String) (h : entryOk e = true) :
    keyOfHeadingLine ("## " ++ e.2.1) = e.1 := by
  simp only [entryOk, Bool.and_eq_true, decide_eq_true_eq] at h
  exact h.1.1.1.1.1.1.1

theorem entryOk_key_ne (e : String × String × String) (h : entryOk e = true) :
    e.1 ≠ "" := by
  simp only [entryOk, Bool.and_eq_true, decide_eq_true_eq] at h
  exact h.2

theorem sum_even (l : List Nat) (h : ∀ x ∈ l, x % 2 = 0) : l.sum % 2 = 0 := by
  induction l with
  | nil => rfl
  | cons x t ih =>
    rw [List.sum_cons]
    have h1 := h x (List.mem_cons_self x t)
    have h2 := ih (fun y hy => h y (List.mem_cons_of_mem x hy))
    omega

theorem countTB_title (r : String) (hrbt : '`' ∉ r.data) :
    countTB ("# AGENTS.md — " ++ r ++ "\n").data = 0 := by
  refine countTB_no_backtick _ ?_
  rw [String.data_append, String.data_append]
  intro hm
  rcases List.mem_append.mp hm with hm | hm
  · rcases List.mem_append.mp hm with hm | hm
    · revert hm
      decide
    · exact hrbt hm
  · revert hm
    decide

theorem countTB_block (e : String × String × String) (hbt : '`' ∉ e.2.1.data) :
    countTB (blockPart e).data = countTB e.2.2.data := by
  have h1 : (blockPart e).data =
      ("## " ++ e.2.1).data ++ '\n' :: ('\n' :: (e.2.2.data ++ '\n' :: [])) := by
    unfold blockPart
    simp [String.data_append, show ("\n" : String).data = ['\n'] from rfl,
      show ("\n\n" : String).data = ['\n', '\n'] from rfl]
  rw [h1, countTB_nl_split]
  rw [countTB_no_backtick ("## " ++ e.2.1).data (by
    rw [String.data_append]
    intro hm
    rcases List.mem_append.mp hm with hm | hm
    · revert hm
      decide
    · exact hbt hm)]
  rw [show ('\n' :: (e.2.2.data ++ '\n' :: []) : List Char) =
    [] ++ '\n' :: (e.2.2.data ++ '\n' :: []) from rfl, countTB_nl_split,
    countTB_nl_split]
  have hz : countTB [] = 0 := rfl
  simp only [hz]
  omega

theorem countTB_doc (r : String) (entries : List (String × String × String))
    (hrbt : '`' ∉ r.data) (hok : ∀ e ∈ entries, entryOk e = true) :
    countTB (joinLines (("# AGENTS.md — " ++ r ++ "\n") :: entries.map blockPart)).data % 2
      = 0 := by
  rw [show (joinLines (("# AGENTS.md — " ++ r ++ "\n") :: entries.map blockPart)).data =
    joinNl (List.map String.data (("# AGENTS.md — " ++ r ++ "\n") ::
      entries.map blockPart)) from rfl]
  rw [countTB_joinNl]
  refine sum_even _ ?_
  intro x hx
  rw [List.mem_map] at hx
  obtain ⟨p, hp, hpx⟩ := hx
  rw [List.mem_map] at hp
  obtain ⟨q, hq, hqp⟩ := hp
  rcases List.mem_cons.mp hq with hq | hq
  · rw [← hpx, ← hqp, hq, countTB_title r hrbt]
  · rw [List.mem_map] at hq
    obtain ⟨e, he, heq⟩ := hq
    rw [← hpx, ← hqp, ← heq, countTB_block e (entryOk_heading_bt e (hok e he))]
    exact entryOk_count e (hok e he)

/-! ## The parse of a rendered document -/

theorem parse_doc (r : String) (entries : List (String × String × String))
    (hr_nl : '\n' ∉ r.data) (hok : ∀ e ∈ entries, entryOk e = true)
    (hnd : (entries.map (fun e => e.1)).Nodup) (hne : entries ≠ []) :
    parse_agents_sections
        (joinLines (("# AGENTS.md — " ++ r ++ "\n") :: entries.map blockPart)) =
      entries.map (fun e => (e.1, e.2.2)) := by
  unfold parse_agents_sections
  rw [parseLines_eq_pairs, pysplitlines_doc r entries hr_nl hok hne,
    ← scanP_eq_sectionPairs]
  rw [scanP.eq_2, title_not_fence r, if_bool_false, if_bool_false,
    title_not_h2 r, if_bool_false]
  rw [show scanP ("" :: entryLinesList entries) false (pushLine none ("# AGENTS.md — " ++ r)) =
    scanP (entryLinesList entries) false none from rfl]
  rw [scanP_entryLines entries hok none]
  rw [show emitCur none ++ entries.map (fun e => (e.1, e.2.2)) =
    entries.map (fun e => (e.1, e.2.2)) from rfl]
  rw [List.filter_eq_self.mpr (fun kv hkv => by
    rw [List.mem_map] at hkv
    obtain ⟨e, he, heq⟩ := hkv
    rw [← heq]
    simp only [truthyKey, decide_eq_true_eq]
    exact entryOk_key_ne e (hok e he))]
  rw [foldl_dictSet_of_nodup (entries.map (fun e => (e.1, e.2.2))) [] (by simp) (by
    rw [List.map_map]
    rw [show (Prod.fst ∘ fun (e : String × String × String) => (e.1, e.2.2)) =
      (fun (e : String × String × String) => e.1) from rfl]
    exact hnd)]
  rw [List.nil_append]

/-! ## Stability of the rendered blocks under re-parsing -/

theorem mem_customTriples (S : List (String × String)) (style : String)
    (e : String × String × String) (he : e ∈ customTriples S style) :
    (!elemStr e.1 ((styleHeadings style).map Prod.fst) && pystrip e.2.2 ≠ "") = true ∧
    e.2.1 = e.1 := by
  rw [customTriples, List.mem_filterMap] at he
  obtain ⟨kv, hkv, heq⟩ := he
  split at heq
  · rename_i hcond
    injection heq with heq2
    rw [← heq2]
    exact ⟨hcond, rfl⟩
  · exact absurd heq (by simp)

theorem mem_schemaTriples (S : List (String × String)) (style : String)
    (e : String × String × String) (he : e ∈ schemaTriples S style) :
    ∃ kh ∈ styleHeadings style, e = (kh.1, kh.2, pystrip ((dictGet S kh.1).getD "")) := by
  rw [schemaTriples, List.mem_filterMap] at he
  obtain ⟨kh, hkh, heq⟩ := he
  split at heq
  · injection heq with heq2
    exact ⟨kh, hkh, heq2.symm⟩
  · exact absurd heq (by simp)

theorem schemaTriples_pairs (S : List (String × String)) (style : String) :
    schemaTriples ((docTriples S style).map (fun e => (e.1, e.2.2))) style =
      schemaTriples S style := by
  unfold schemaTriples
  refine List.filterMap_congr ?_
  intro kh hkh
  have hg : ∀ (x : String × String) (y : String × String × String),
      (if pystrip ((dictGet S x.1).getD "") ≠ "" then
        some (x.1, x.2, pystrip ((dictGet S x.1).getD "")) else none) = some y →
      y.1 = x.1 := by
    intro x y hxy
    split at hxy
    · injection hxy with h2
      rw [← h2]
    · exact absurd hxy (by simp)
  have hcustomNone : dictGet ((customTriples S style).map (fun e => (e.1, e.2.2))) kh.1
      = none := by
    refine dictGet_eq_none_of_not_mem _ _ ?_
    intro hc
    rw [List.map_map] at hc
    rw [show (Prod.fst ∘ fun (e : String × String × String) => (e.1, e.2.2)) =
      (fun (e : String × String × String) => e.1) from rfl] at hc
    rw [List.mem_map] at hc
    obtain ⟨e, he, heq⟩ := hc
    have hfacts := (mem_customTriples S style e he).1
    rw [Bool.and_eq_true] at hfacts
    have : elemStr e.1 ((styleHeadings style).map Prod.fst) = false := by
      have := hfacts.1
      revert this
      cases elemStr e.1 ((styleHeadings style).map Prod.fst) <;> simp
    rw [heq] at this
    rw [elemStr_of_mem kh.1 _ (List.mem_map_of_mem Prod.fst hkh)] at this
    exact absurd this (by simp)
  have hlookup : dictGet ((docTriples S style).map (fun e => (e.1, e.2.2))) kh.1 =
      if pystrip ((dictGet S kh.1).getD "") ≠ "" then
        some (pystrip ((dictGet S kh.1).getD "")) else none := by
    rw [docTriples, List.map_append, dictGet_append]
    rw [show schemaTriples S style = (styleHeadings style).filterMap (fun kh' =>
      if pystrip ((dictGet S kh'.1).getD "") ≠ "" then
        some (kh'.1, kh'.2, pystrip ((dictGet S kh'.1).getD "")) else none) from rfl]
    rw [dictGet_proj_filterMap _ hg (styleHeadings style) (styleHeadings_keys_nodup style)
      kh hkh]
    by_cases hc : pystrip ((dictGet S kh.1).getD "") ≠ ""
    · rw [if_pos hc, if_pos hc]
      rfl
    · rw [if_neg hc, if_neg hc]
      show dictGet _ kh.1 = none
      exact hcustomNone
  by_cases hc : pystrip ((dictGet S kh.1).getD "") ≠ ""
  · rw [hlookup, if_pos hc]
    rw [show (some (pystrip ((dictGet S kh.1).getD ""))).getD "" =
      pystrip ((dictGet S kh.1).getD "") from rfl]
    rw [pystrip_idem]
  · rw [hlookup, if_neg hc]
    have hc2 : pystrip ((dictGet S kh.1).getD "") = "" := by
      revert hc
      by_cases h2 : pystrip ((dictGet S kh.1).getD "") = "" <;> simp [h2]
    rw [show ((none : Option String)).getD "" = "" from rfl]
    rw [show pystrip "" = "" from rfl]
    rw [if_neg (by simp), if_neg (by rw [hc2]; simp)]

theorem filterMap_proj_id (keys : List String) :
    ∀ (ct : List (String × String × String)),
    (∀ e ∈ ct, (!elemStr e.1 keys && pystrip e.2.2 ≠ "") = true ∧ e.2.1 = e.1) →
    (ct.map (fun e => (e.1, e.2.2))).filterMap (fun kv =>
      if !elemStr kv.1 keys && pystrip kv.2 ≠ "" then some (kv.1, kv.1, kv.2)
      else none) = ct := by
  intro ct
  induction ct with
  | nil => intro _; rfl
  | cons e t ih =>
    intro hf
    have he := hf e (List.mem_cons_self e t)
    rw [List.map_cons]
    have hfa : (fun (kv : String × String) =>
        if !elemStr kv.1 keys && pystrip kv.2 ≠ "" then some (kv.1, kv.1, kv.2)
        else none) (e.1, e.2.2) = some (e.1, e.1, e.2.2) := by
      show (if !elemStr e.1 keys && pystrip e.2.2 ≠ "" then some (e.1, e.1, e.2.2)
        else none) = some (e.1, e.1, e.2.2)
      rw [if_pos (by exact he.1)]
    rw [@List.filterMap_cons_some (String × String) (String × String × String)
      (fun (kv : String × String) =>
        if !elemStr kv.1 keys && pystrip kv.2 ≠ "" then some (kv.1, kv.1, kv.2)
        else none)
      (e.1, e.2.2) (List.map (fun e => (e.1, e.2.2)) t) (e.1, e.1, e.2.2) hfa]
    rw [ih (fun x hx => hf x (List.mem_cons_of_mem e hx))]
    obtain ⟨e1, e21, e22⟩ := e
    have h21 : e21 = e1 := he.2
    rw [h21]

theorem customTriples_pairs (S : List (String × String)) (style : String) :
    customTriples ((docTriples S style).map (fun e => (e.1, e.2.2))) style =
      customTriples S style := by
  rw [show customTriples ((docTriples S style).map (fun e => (e.1, e.2.2))) style =
    ((docTriples S style).map (fun e => (e.1, e.2.2))).filterMap (fun kv =>
      if !elemStr kv.1 ((styleHeadings style).map Prod.fst) && pystrip kv.2 ≠ "" then
        some (kv.1, kv.1, kv.2)
      else none) from rfl]
  rw [docTriples, List.map_append, List.filterMap_append]
  have hschema : ((schemaTriples S style).map (fun e => (e.1, e.2.2))).filterMap (fun kv =>
      if !elemStr kv.1 ((styleHeadings style).map Prod.fst) && pystrip kv.2 ≠ "" then
        some (kv.1, kv.1, kv.2)
      else none) = [] := by
    rw [List.filterMap_eq_nil_iff]
    intro a ha
    rw [List.mem_map] at ha
    obtain ⟨e, he, heq⟩ := ha
    obtain ⟨kh, hkh, hekh⟩ := mem_schemaTriples S style e he
    have helem : elemStr a.1 ((styleHeadings style).map Prod.fst) = true := by
      have h1 : a.1 = kh.1 := by rw [← heq, hekh]
      rw [h1]
      exact elemStr_of_mem _ _ (List.mem_map_of_mem Prod.fst hkh)
    rw [if_neg]
    rw [helem]
    simp
  rw [hschema, filterMap_proj_id ((styleHeadings style).map Prod.fst)
    (customTriples S style) (mem_customTriples S style), List.nil_append]

/-! ## C5: round-trip identity -/

theorem compile_no_existing (S : List (String × String)) (r style : String) :
    compile_agents_md S r style "" = fenceFix (joinLines (renderedParts S r style)) := by
  unfold compile_agents_md
  rw [if_pos rfl]

theorem fenceFix_of_even (s : String) (h : countTB s.data % 2 = 0) : fenceFix s = s := by
  unfold fenceFix
  rw [if_neg (fun hc => hc h)]

theorem pysplitlines_title (r : String) (hr_nl : '\n' ∉ r.data) :
    pysplitlines ("# AGENTS.md — " ++ r ++ "\n") = ["# AGENTS.md — " ++ r] := by
  unfold pysplitlines pysplitlinesL
  rw [if_neg (by
    rw [String.data_append]
    simp)]
  rw [title_split r hr_nl]
  rw [if_pos (by simp)]
  rfl

theorem headingIndices_title (r : String) :
    headingIndices ["# AGENTS.md — " ++ r] = [] := by
  unfold headingIndices
  rw [hIdxAux, title_not_fence r, if_bool_false, if_bool_false,
    title_not_h2 r, if_bool_false]
  rfl

theorem docTriples_nil (style : String) : docTriples [] style = [] := by
  unfold docTriples schemaTriples customTriples
  rw [List.filterMap_nil, List.append_nil]
  refine List.filterMap_eq_nil_iff.mpr ?_
  intro kh _
  rfl

theorem docTriples_pairs (S : List (String × String)) (style : String) :
    docTriples ((docTriples S style).map (fun e => (e.1, e.2.2))) style =
      docTriples S style := by
  show schemaTriples _ style ++ customTriples _ style = _
  rw [schemaTriples_pairs S style, customTriples_pairs S style]
  rfl

/-- C5 counterexample: a body that itself contains a heading-like line breaks
the round trip — rendering `{code_style: "## Fake"}`, parsing the result and
re-rendering collapses the document to the bare title. -/
theorem round_trip_cex :
    compile_agents_md
        (parse_agents_sections
          (compile_agents_md [("code_style", "## Fake")] "demo" "strict" ""))
        "demo" "strict" "" ≠
      compile_agents_md [("code_style", "## Fake")] "demo" "strict" "" := by
  decide

/-- C5 amended: rendering with no existing content, parsing the result and
re-rendering is the identity provided the rendered document is well-formed:
the repository name contains no newline and no backtick, the emitted block
keys are pairwise distinct, and every emitted block is well-formed in the
sense of `entryOk` (its heading line maps back to its key, its body is
non-empty, trim-fixed, fence-balanced, and contains no heading-like line
outside a fence, its heading text is single-line and backtick-free, and its
key is non-empty, so the re-parsing loop's `if current_key:` truthiness
guard stores it). -/
theorem round_trip_identity (sections : List (String × String))
    (repo_name style : String)
    (hr_nl : '\n' ∉ repo_name.data) (hr_bt : '`' ∉ repo_name.data)
    (hok : ∀ e ∈ docTriples sections style, entryOk e = true)
    (hnd : ((docTriples sections style).map (fun e => e.1)).Nodup) :
    compile_agents_md
        (parse_agents_sections (compile_agents_md sections repo_name style ""))
        repo_name style "" =
      compile_agents_md sections repo_name style "" := by
  have hfirst : compile_agents_md sections repo_name style "" =
      fenceFix (joinLines (("# AGENTS.md — " ++ repo_name ++ "\n") ::
        (docTriples sections style).map blockPart)) := by
    rw [compile_no_existing, renderedParts_eq]
  by_cases hne : docTriples sections style = []
  · rw [hfirst, hne]
    rw [show List.map blockPart ([] : List (String × String × String)) = [] from rfl]
    rw [show joinLines [("# AGENTS.md — " ++ repo_name ++ "\n")] =
      ("# AGENTS.md — " ++ repo_name ++ "\n") from rfl]
    rw [fenceFix_of_even _ (by rw [countTB_title repo_name hr_bt])]
    have hparse : parse_agents_sections ("# AGENTS.md — " ++ repo_name ++ "\n") = [] := by
      unfold parse_agents_sections
      rw [pysplitlines_title repo_name hr_nl, parseLines_eq_pairs]
      rw [show sectionPairs ["# AGENTS.md — " ++ repo_name] = [] from by
        unfold sectionPairs
        rw [headingIndices_title repo_name]]
      rfl
    rw [hparse, compile_no_existing, renderedParts_eq, docTriples_nil]
    rw [show List.map blockPart ([] : List (String × String × String)) = [] from rfl]
    rw [show joinLines [("# AGENTS.md — " ++ repo_name ++ "\n")] =
      ("# AGENTS.md — " ++ repo_name ++ "\n") from rfl]
    rw [fenceFix_of_even _ (by rw [countTB_title repo_name hr_bt])]
  · rw [hfirst]
    rw [fenceFix_of_even _ (countTB_doc repo_name _ hr_bt hok)]
    rw [parse_doc repo_name (docTriples sections style) hr_nl hok hnd hne]
    rw [compile_no_existing, renderedParts_eq, docTriples_pairs]
    rw [fenceFix_of_even _ (countTB_doc repo_name _ hr_bt hok)]

/-- C5 witness: the amended round trip at a concrete map with one schema
section and one custom section containing a fenced heading-like line. -/
theorem round_trip_identity_witness :
    ('\n' ∉ ("demo" : String).data) ∧ ('`' ∉ ("demo" : String).data) ∧
    (∀ e ∈ docTriples
      [("code_style", "* a\n\n* b"), ("My Notes", "- n1\n```py\n## x\n```")] "strict",
      entryOk e = true) ∧
    ((docTriples
      [("code_style", "* a\n\n* b"), ("My Notes", "- n1\n```py\n## x\n```")] "strict").map
        (fun e => e.1)).Nodup ∧
    compile_agents_md
        (parse_agents_sections
          (compile_agents_md
            [("code_style", "* a\n\n* b"), ("My Notes", "- n1\n```py\n## x\n```")]
            "demo" "strict" ""))
        "demo" "strict" "" =
      compile_agents_md
        [("code_style", "* a\n\n* b"), ("My Notes", "- n1\n```py\n## x\n```")]
        "demo" "strict" "" :=
  ⟨by decide, by decide, by decide, by decide,
   round_trip_identity
     [("code_style", "* a\n\n* b"), ("My Notes", "- n1\n```py\n## x\n```")]
     "demo" "strict" (by decide) (by decide) (by decide) (by decide)⟩

end AgentsMd
